import Mathlib

/-!
Shallow embedding of the hydrant chain-follower's core (`src/db/mod.rs`,
`src/db/env.rs`, `src/indexer/utxo.rs`, `src/primitives/*`, `src/sync.rs`)
and proofs about it.

Conventions of the embedding:
* Hashes (`Hash<N>`) are byte lists; the fixed length plays no role in the
  verified logic.
* An LMDB table with ordered keys is modelled either as a function
  `key → Option value` (for the hash-keyed tables, whose iteration order is
  never used) or, for `slots` (whose big-endian u64 keys are iterated in
  reverse), as a list of `(slot, hash)` pairs kept sorted in strictly
  descending slot order — exactly the order `rev_range(0..)` yields.
* A fallible Rust function returning `anyhow::Result` becomes a Lean
  function into `Except String`.
* A write transaction is a pure state transformation: the Rust code runs
  its per-block work in one transaction, so the in-between states are never
  observable and the final state is all that matters.
* Machine integers (u64/usize) stay well below their bounds in every
  operation modelled here (slot arithmetic `slot + 1`, list lengths), so
  they are embedded as `Nat`; `usize` subtraction in `Env::resize` is noted
  at its definition.
-/

namespace Hydrant

/-- Byte strings (`Vec<u8>` / `[u8; N]`). -/
abbrev Bytes := List Nat

/-- `Hash<32>` of a block (`primitives/block.rs`). -/
abbrev BlockHash := Bytes

/-- `Hash<32>` of a transaction (`primitives/tx.rs`). -/
abbrev TxHash := Bytes

/-- `Hash<32>` of a datum (`primitives/tx_output.rs`). -/
abbrev DatumHash := Bytes

/-- Raw datum bytes (`primitives/tx_output.rs`). -/
abbrev Datum := Bytes

/-- Raw address bytes (`primitives/tx_output.rs`). -/
abbrev Address := Bytes

/-- `Hash<28>` minting policy (`primitives/asset.rs`). -/
abbrev Policy := Bytes

/-- Asset name bytes (`primitives/asset.rs`). -/
abbrev AssetName := Bytes

/-- `Asset` from `primitives/asset.rs`: an output-side asset amount. -/
structure Asset where
  policy : Policy
  name : AssetName
  quantity : Nat
deriving DecidableEq, Repr

/-- `AssetId` from `primitives/asset.rs`: a policy with an optional name;
a missing name is a wildcard over the policy. -/
structure AssetId where
  policy : Policy
  name : Option AssetName
deriving DecidableEq, Repr

/-- `impl PartialEq<Asset> for AssetId` (`primitives/asset.rs`): policies
must agree and the name, when present, must agree. -/
def AssetId.matches (w : AssetId) (a : Asset) : Bool :=
  w.policy == a.policy &&
    (match w.name with
     | none => true
     | some n => n == a.name)

/-- `From<&Asset> for AssetId` (`primitives/asset.rs`). -/
def AssetId.ofAsset (a : Asset) : AssetId :=
  { policy := a.policy, name := some a.name }

/-- `Mint` from `primitives/asset.rs` (signed quantity). -/
structure Mint where
  policy : Policy
  name : AssetName
  quantity : Int
deriving DecidableEq, Repr

/-- `Script` from `primitives/script.rs`. -/
inductive Script where
  | v1 (bytes : Bytes)
  | v2 (bytes : Bytes)
  | v3 (bytes : Bytes)
deriving DecidableEq, Repr

/-- `NativeScript` from `primitives/script.rs` (recursive sum). -/
inductive NativeScript where
  | scriptPubkey (keyHash : Bytes)
  | scriptAll (scripts : List NativeScript)
  | scriptAny (scripts : List NativeScript)
  | scriptNOfK (n : Nat) (scripts : List NativeScript)
  | invalidBefore (slot : Nat)
  | invalidHereafter (slot : Nat)

/-- `TxOutput` from `primitives/tx_output.rs`. -/
structure TxOutput where
  address : Address
  lovelace : Nat
  assets : List Asset
  datum_hash : Option DatumHash
deriving DecidableEq, Repr

/-- `TxOutputPointer` from `primitives/tx_output.rs`: key of one output of
one transaction. -/
structure TxOutputPointer where
  hash : TxHash
  index : Nat
deriving DecidableEq, Repr

/-- `Tx` from `primitives/tx.rs`, as produced by `Tx::parse`. -/
structure Tx where
  hash : TxHash
  inputs : List TxOutputPointer
  outputs : List TxOutput
  collateral : List TxOutputPointer
  collateral_return : Option TxOutput
  reference_inputs : List TxOutputPointer
  mints : List Mint
  scripts : List Script
  native_scripts : List NativeScript
  valid : Bool

/-- `Tx::spent` (`primitives/tx.rs`): the pointers a transaction consumes —
`inputs` when valid, `collateral` when not. -/
def Tx.spent (t : Tx) : List TxOutputPointer :=
  if t.valid then t.inputs else t.collateral

/-- `Tx::unspent` (`primitives/tx.rs`): the outputs a transaction produces —
`outputs.iter().filter(|_| self.valid)`. -/
def Tx.unspent (t : Tx) : List TxOutput :=
  t.outputs.filter (fun _ => t.valid)

/-- `VolatileBlock` from `primitives/volatile_block.rs`: the receipt of what
a `roll_forward` stored for one block. -/
structure VolatileBlock where
  hash : BlockHash
  number : Nat
  slot : Nat
  txs : List TxHash
  datums : List DatumHash

/-- `Point` from the chain-sync protocol: `Origin` or
`Specific(slot, block_hash)`. -/
inductive Point where
  | origin
  | specific (slot : Nat) (hash : BlockHash)
deriving DecidableEq, Repr

/-! ### Key-value tables

The hash-keyed LMDB sub-databases (`volatile_tx`, `volatile_block`, the
`UtxoIndexer`'s `utxos`) are modelled as functions into `Option`; `put` and
`delete` are pointwise updates. -/

/-- `Database::put` on a hash-keyed table. -/
def tput {K V : Type} [DecidableEq K] (m : K → Option V) (k : K) (v : V) :
    K → Option V :=
  fun k' => if k' = k then some v else m k'

/-- `Database::delete` on a hash-keyed table. -/
def tdel {K V : Type} [DecidableEq K] (m : K → Option V) (k : K) :
    K → Option V :=
  fun k' => if k' = k then none else m k'

/-- An empty table. -/
def tempty {K V : Type} : K → Option V := fun _ => none

/-! ### The `slots` table

`slots : Database<U64<BigEndian>, BlockHash>` is iterated through
`rev_range`, so the representation is the list of its `(slot, hash)` pairs
in strictly descending slot order (the order `rev_range(0..)` produces). -/

/-- Strictly descending slot keys: the representation invariant of the
`slots` list (LMDB keys are unique and ordered). -/
def slotsDescB : List (Nat × BlockHash) → Bool
  | [] => true
  | [_] => true
  | a :: b :: rest => decide (b.1 < a.1) && slotsDescB (b :: rest)

/-- LMDB's byte-string key order (`memcmp`, shorter prefix first), used for
the `Str`-keyed `indexer_ids` table whose keys are the UTF-8 bytes of the
indexer id strings. -/
def bytesLt : Bytes → Bytes → Bool
  | [], [] => false
  | [], _ :: _ => true
  | _ :: _, [] => false
  | a :: as, b :: bs => a < b || (a == b && bytesLt as bs)

/-- `slots.put`: insert or replace, keeping the descending order. -/
def slotsPut : List (Nat × BlockHash) → Nat → BlockHash → List (Nat × BlockHash)
  | [], s, h => [(s, h)]
  | e :: rest, s, h =>
    if e.1 < s then (s, h) :: e :: rest
    else if e.1 = s then (s, h) :: rest
    else e :: slotsPut rest s h

/-- `slots.delete`. -/
def slotsDelete (l : List (Nat × BlockHash)) (s : Nat) : List (Nat × BlockHash) :=
  l.filter (fun e => e.1 ≠ s)

/-! ### Database state and the indexer capability set -/

/-- The canonical tables of `Db` (`db/mod.rs`), plus the private state of
the registered indexers, of an abstract type `I` (each indexer owns its own
sub-tables inside the same environment; the engine never touches them
directly).  `indexer_ids : Database<Str, Unit>` is represented by its key
list (the ids' UTF-8 bytes) in ascending bytewise order — the order its
iterator yields. -/
structure DbState (I : Type) where
  slots : List (Nat × BlockHash)
  volatile_tx : TxHash → Option Tx
  volatile_block : BlockHash → Option VolatileBlock
  indexer_ids : List Bytes
  indexer : I

/-- The `Indexer` trait (`indexer/mod.rs`).  Each hook receives the write
transaction's view of `volatile_tx` (the only canonical table the provided
`Db` handle is used to read, via `get_volatile_tx_output`) and transforms
the indexer-owned state `I`. -/
structure Indexer (I : Type) where
  id : Bytes
  insert_tx : (TxHash → Option Tx) → I → Tx → Except String (Bool × I)
  delete_tx : (TxHash → Option Tx) → I → Tx → Except String I
  insert_datum : (TxHash → Option Tx) → I → DatumHash → Datum → Except String (Bool × I)
  delete_datum : (TxHash → Option Tx) → I → DatumHash → Except String I
  clear : I → Except String I

/-- A raw block as `roll_forward` consumes it, at the decode boundary: the
header fields plus, per raw transaction, the `(Tx, datums)` pair that
`Tx::parse` yields (CBOR decoding itself is an external collaborator). -/
structure Block where
  hash : BlockHash
  number : Nat
  slot : Nat
  txs : List (Tx × List (DatumHash × Datum))

namespace Db

/-- The UTF-8 bytes of the sentinel id `"empty"` that `assert_indexer_ids`
records when the live indexer list is empty. -/
def emptySentinel : Bytes := [101, 109, 112, 116, 121]

/-- `Db::assert_indexer_ids` (`db/mod.rs` 105–130).  If the `indexer_ids`
table is empty this is the first run: every live id is `put` (the table
stores them as sorted unique keys), plus a `"empty"` sentinel when the live
list is empty.  Otherwise the stored key list must equal the live list. -/
def idPut (ids : List Bytes) (k : Bytes) : List Bytes :=
  match ids with
  | [] => [k]
  | x :: rest =>
    if bytesLt k x then k :: x :: rest
    else if k = x then x :: rest
    else x :: idPut rest k

/-- The key list `assert_indexer_ids` leaves in `indexer_ids` on first run. -/
def idsStored (ids : List Bytes) : List Bytes :=
  let stored := ids.foldl idPut []
  if ids.isEmpty then idPut stored emptySentinel else stored

/-- `Db::assert_indexer_ids` itself. -/
def assert_indexer_ids {I : Type} (st : DbState I) (ids : List Bytes) :
    Except String (DbState I) :=
  if st.indexer_ids.length = 0 then
    Except.ok { st with indexer_ids := idsStored ids }
  else if st.indexer_ids = ids then
    Except.ok st
  else
    Except.error "indexer ids don't match"

/-- `Db::tip` (`db/mod.rs` 132–140): the first entry of
`slots.rev_range(0..)` — the head of the descending list — or `Origin` when
the table is empty.  A read-only operation: it takes no state to return. -/
def tip {I : Type} (st : DbState I) : Point :=
  match st.slots with
  | [] => Point.origin
  | e :: _ => Point.specific e.1 e.2

/-- `Db::get_volatile_tx_output` (`db/mod.rs` 87–103): look the pointer's
transaction up in `volatile_tx`; `Ok(None)` when the tx is absent, an error
when the tx exists but the output index is out of range. -/
def get_volatile_tx_output (vt : TxHash → Option Tx) (p : TxOutputPointer) :
    Except String (Option TxOutput) :=
  match vt p.hash with
  | none => Except.ok none
  | some tx =>
    match tx.outputs[p.index]? with
    | some o => Except.ok (some o)
    | none => Except.error "missing output"

/-- The `try_fold(false, |acc, i| i.insert_tx(..).map(|b| acc || b))` over
the indexer list in `roll_forward`. -/
def foldInsertTx {I : Type} (indexers : List (Indexer I))
    (vt : TxHash → Option Tx) (ind : I) (tx : Tx) : Except String (Bool × I) :=
  indexers.foldlM
    (fun acc i => (i.insert_tx vt acc.2 tx).map (fun r => (acc.1 || r.1, r.2)))
    (false, ind)

/-- The analogous OR-fold of `insert_datum`. -/
def foldInsertDatum {I : Type} (indexers : List (Indexer I))
    (vt : TxHash → Option Tx) (ind : I) (dh : DatumHash) (d : Datum) :
    Except String (Bool × I) :=
  indexers.foldlM
    (fun acc i => (i.insert_datum vt acc.2 dh d).map (fun r => (acc.1 || r.1, r.2)))
    (false, ind)

/-- `for indexer in indexers.iter() { indexer.delete_tx(..)? }`. -/
def foldDeleteTx {I : Type} (indexers : List (Indexer I))
    (vt : TxHash → Option Tx) (ind : I) (tx : Tx) : Except String I :=
  indexers.foldlM (fun ind i => i.delete_tx vt ind tx) ind

/-- `for indexer in indexers.iter() { indexer.delete_datum(..)? }`. -/
def foldDeleteDatum {I : Type} (indexers : List (Indexer I))
    (vt : TxHash → Option Tx) (ind : I) (dh : DatumHash) : Except String I :=
  indexers.foldlM (fun ind i => i.delete_datum vt ind dh) ind

/-- Accumulator of `roll_forward`'s per-transaction loop: the evolving
state plus the `tx_hashes` / `datum_hashes` vectors. -/
structure FwdAcc (I : Type) where
  st : DbState I
  txHashes : List TxHash
  datumHashes : List DatumHash

/-- One iteration of `roll_forward`'s `for raw_tx in block.txs()` loop
(`db/mod.rs` 156–176): fold `insert_tx` over the indexers, persist the tx
to `volatile_tx` when some indexer kept it, then fold `insert_datum` over
the tx's datums. -/
def roll_forward_tx {I : Type} (indexers : List (Indexer I)) (acc : FwdAcc I)
    (txd : Tx × List (DatumHash × Datum)) : Except String (FwdAcc I) := do
  let tx := txd.1
  let r ← foldInsertTx indexers acc.st.volatile_tx acc.st.indexer tx
  let st1 := { acc.st with indexer := r.2 }
  let (st2, txHashes) :=
    if r.1 then
      ({ st1 with volatile_tx := tput st1.volatile_tx tx.hash tx },
        acc.txHashes ++ [tx.hash])
    else (st1, acc.txHashes)
  txd.2.foldlM
    (fun (a : FwdAcc I) dd => do
      let rd ← foldInsertDatum indexers a.st.volatile_tx a.st.indexer dd.1 dd.2
      Except.ok
        { a with
          st := { a.st with indexer := rd.2 }
          datumHashes := if rd.1 then a.datumHashes ++ [dd.1] else a.datumHashes })
    { st := st2, txHashes := txHashes, datumHashes := acc.datumHashes }

/-- `Db::roll_forward` (`db/mod.rs` 142–187): assert the indexer ids, run
every transaction through the indexers, then write the `VolatileBlock`
receipt and the `slots` spine entry, all in one committed transaction.
(`env.resize()` afterwards touches only the memory map, never a table.) -/
def roll_forward {I : Type} (indexers : List (Indexer I)) (st : DbState I)
    (b : Block) : Except String (DbState I) := do
  let st ← assert_indexer_ids st (indexers.map (fun i => i.id))
  let acc ← b.txs.foldlM (roll_forward_tx indexers) ⟨st, [], []⟩
  let vb : VolatileBlock :=
    { hash := b.hash, number := b.number, slot := b.slot
      txs := acc.txHashes, datums := acc.datumHashes }
  let st := acc.st
  let st := { st with volatile_block := tput st.volatile_block b.hash vb }
  Except.ok { st with slots := slotsPut st.slots b.slot b.hash }

/-- `Db::clear` (`db/mod.rs` 278–295): truncate the four canonical tables
and call every indexer's `clear`. -/
def clear {I : Type} (indexers : List (Indexer I)) (st : DbState I) :
    Except String (DbState I) := do
  let ind ← indexers.foldlM (fun ind i => i.clear ind) st.indexer
  Except.ok
    { slots := [], volatile_tx := tempty, volatile_block := tempty
      indexer_ids := [], indexer := ind }

/-- One iteration of `roll_backward`'s per-slot loop (`db/mod.rs` 206–243).
All table reads go through the read snapshot `snap` taken when the loop's
`rev_range` iterator was opened; the per-slot write transaction acts on the
current state `st`.  The block's transactions are undone in reverse order;
`volatile_tx` is read but — unlike `slots` and `volatile_block` — never
deleted from. -/
def roll_backward_slot {I : Type} (indexers : List (Indexer I))
    (snap : DbState I) (st : DbState I) (e : Nat × BlockHash) :
    Except String (DbState I) := do
  match snap.volatile_block e.2 with
  | none =>
    Except.error "block not found while rolling back, the db could be corrupt or rolled back further than max_rollback_blocks"
  | some vb => do
    let st ← vb.txs.reverse.foldlM
      (fun (st : DbState I) th =>
        match snap.volatile_tx th with
        | none => Except.error "tx not found while rolling back, the db could be corrupt"
        | some tx => do
          let ind ← foldDeleteTx indexers st.volatile_tx st.indexer tx
          Except.ok { st with indexer := ind })
      st
    let st ← vb.datums.reverse.foldlM
      (fun (st : DbState I) dh => do
        let ind ← foldDeleteDatum indexers st.volatile_tx st.indexer dh
        Except.ok { st with indexer := ind })
      st
    Except.ok
      { st with
        slots := slotsDelete st.slots e.1
        volatile_block := tdel st.volatile_block e.2 }

/-- `Db::roll_backward` (`db/mod.rs` 189–246).  `Origin` clears everything;
`Specific(slot, _)` — the hash is never consulted — asserts the indexer
ids, then walks the snapshot's `slots` entries with key `≥ slot + 1` in
descending order, undoing one block per write transaction. -/
def roll_backward {I : Type} (indexers : List (Indexer I)) (st : DbState I)
    (p : Point) : Except String (DbState I) :=
  match p with
  | Point.origin => clear indexers st
  | Point.specific slot _ => do
    let st ← assert_indexer_ids st (indexers.map (fun i => i.id))
    (st.slots.filter (fun e => slot + 1 ≤ e.1)).foldlM
      (roll_backward_slot indexers st) st

/-- The loop of `Db::trim_volatile` (`db/mod.rs` 252–273) over the slot
entries past the newest `max_rollback_blocks`: reads go through the
snapshot `snap`; a missing `volatile_block` record stops the walk (already
trimmed); otherwise the block's raw txs and its receipt are deleted. -/
def trim_blocks {I : Type} (snap : DbState I) :
    List (Nat × BlockHash) → DbState I → DbState I
  | [], st => st
  | e :: rest, st =>
    match snap.volatile_block e.2 with
    | none => st
    | some vb =>
      let st := vb.txs.reverse.foldl
        (fun (st : DbState I) th => { st with volatile_tx := tdel st.volatile_tx th })
        st
      trim_blocks snap rest { st with volatile_block := tdel st.volatile_block e.2 }

/-- `Db::trim_volatile` (`db/mod.rs` 248–276): skip the newest
`max_rollback_blocks` entries of the descending `slots` iteration, then
drop the raw bodies of everything older.  `slots` itself is never
touched. -/
def trim_volatile {I : Type} (st : DbState I) (max_rollback_blocks : Nat) :
    DbState I :=
  trim_blocks st (st.slots.drop max_rollback_blocks) st

end Db

namespace Env

/-- 1 GiB, the `minimum_free_space` constant of `Env::resize`
(`db/env.rs` 88). -/
def gib : Nat := 1024 * 1024 * 1024

/-- The decision arithmetic of `Env::resize` (`db/env.rs` 82–107): given
the environment's page size and the `info()` fields `map_size` and
`last_page_number`, return `some new_size` when a resize is triggered and
`none` otherwise.  `free_size` is `usize` subtraction in the source; every
real environment has `used_size ≤ map_size`, and `Nat` subtraction agrees
there.  The locking around the actual `mdb_env_set_mapsize` call is a
concurrency concern outside this embedding. -/
def resize_check (page_size map_size last_page_number : Nat) : Option Nat :=
  let used_size := page_size * last_page_number
  let current_size := map_size
  let free_size := current_size - used_size
  let minimum_free_space := gib
  if free_size < minimum_free_space || free_size > minimum_free_space * 2 then
    let new_size := current_size + minimum_free_space
    some (new_size + new_size % page_size)
  else
    none

/-- Second definition, following the specification's words only (`spec.md`
§4.1: "pick `new = round_up_to_page(map_size + 1 GiB)`"): the least
multiple of the page size that is `≥ n`.  To be compared against what
`resize_check` actually picks. -/
def round_up_to_page (n page : Nat) : Nat :=
  ((n + page - 1) / page) * page

end Env

/-! ### Chain-sync pipeline (`sync.rs`) -/

/-- `Tip` of the chain-sync protocol: a point plus a block number. -/
structure Tip where
  point : Point
  block_no : Nat
deriving DecidableEq, Repr

/-- `SyncEvent` (`sync.rs` 18–23). -/
inductive SyncEvent where
  | rollForwardEv (block : Bytes) (tip : Tip)
  | rollBackwardEv (point : Point)
deriving DecidableEq, Repr

namespace Sync

/-- `Sync::flush_pending_fetches` (`sync.rs` 111–135).  `pending` is the
`pending_fetches` list; `blocks` is the sequence the peer returned for the
range block-fetch from the first to the last pending point (the network
interaction itself is an external collaborator, so the response is a
parameter).  Yields the events pushed to the writer; the caller clears
`pending_fetches` afterwards in every case. -/
def flush_pending_fetches (pending : List (Point × Tip)) (blocks : List Bytes) :
    Except String (List SyncEvent) :=
  match pending.head?, pending.getLast? with
  | some _, some lastE =>
    if blocks.length ≠ pending.length then
      Except.error "fetched block count differs from expected"
    else
      Except.ok (blocks.map (fun b => SyncEvent.rollForwardEv b lastE.2))
  | _, _ => Except.ok []

end Sync

/-! ### The reference `UtxoIndexer` (`indexer/utxo.rs`) -/

/-- The builder-supplied filters of `UtxoIndexer` (`indexer/utxo.rs`
49–56): the optional `addresses` and `assets` lists. -/
structure UtxoConfig where
  addresses : Option (List Address)
  assets : Option (List AssetId)

/-- The indexer-owned tables of `UtxoIndexer`: `utxos` plus the `DUP_SORT`
multimaps `by_address` / `by_asset` (a `DUP_SORT` table stores each exact
(key, value) pair at most once; `delete_one_duplicate` removes one such
pair). -/
structure UtxoState where
  utxos : TxOutputPointer → Option TxOutput
  by_address : List (Address × TxOutputPointer)
  by_asset : List (AssetId × TxOutputPointer)

/-- `put` on a `DUP_SORT` table: record the exact pair once. -/
def dupPut {α : Type} [DecidableEq α] (l : List α) (x : α) : List α :=
  if x ∈ l then l else x :: l

/-- `delete_one_duplicate`: drop one occurrence of the exact pair. -/
def dupDel {α : Type} [DecidableEq α] : List α → α → List α
  | [], _ => []
  | y :: rest, x => if y = x then rest else y :: dupDel rest x

namespace UtxoIndexer

/-- The empty `UtxoIndexer` state (also the result of its `clear`). -/
def empty : UtxoState :=
  { utxos := tempty, by_address := [], by_asset := [] }

/-- `UtxoIndexer::insert_output` (`indexer/utxo.rs` 97–124): return `false`
without writing when the output's address appears in the `addresses` list,
or when an `assets` list is set and no whitelisted asset id matches any of
the output's assets; otherwise record the output under its pointer and in
both secondary indexes and return `true`. -/
def insert_output (cfg : UtxoConfig) (u : UtxoState) (pointer : TxOutputPointer)
    (output : TxOutput) : Bool × UtxoState :=
  if Option.any (fun addresses => addresses.contains output.address) cfg.addresses then
    (false, u)
  else if Option.any
      (fun assets =>
        !(assets.any (fun w => output.assets.any (fun a => AssetId.matches w a))))
      cfg.assets then
    (false, u)
  else
    (true,
      { utxos := tput u.utxos pointer output
        by_address := dupPut u.by_address (output.address, pointer)
        by_asset :=
          output.assets.foldl
            (fun m a => dupPut m (AssetId.ofAsset a, pointer)) u.by_asset })

/-- `UtxoIndexer::consume_input` (`indexer/utxo.rs` 126–140): when the
pointer is present, remove it from `utxos` and from both secondary indexes
and return `true`; otherwise return `false`. -/
def consume_input (u : UtxoState) (input : TxOutputPointer) : Bool × UtxoState :=
  match u.utxos input with
  | none => (false, u)
  | some utxo =>
    (true,
      { utxos := tdel u.utxos input
        by_address := dupDel u.by_address (utxo.address, input)
        by_asset :=
          utxo.assets.foldl
            (fun m a => dupDel m (AssetId.ofAsset a, input)) u.by_asset })

/-- `UtxoIndexer::insert_tx` (`indexer/utxo.rs` 144–159): consume every
spent pointer, then insert every produced output at
`(tx.hash, index-in-unspent)`; the returned flag ORs every per-call
result. -/
def insert_tx (cfg : UtxoConfig) (u : UtxoState) (tx : Tx) : Bool × UtxoState :=
  let s1 :=
    tx.spent.foldl
      (fun (acc : Bool × UtxoState) input =>
        let r := consume_input acc.2 input
        (acc.1 || r.1, r.2))
      (false, u)
  tx.unspent.enum.foldl
    (fun (acc : Bool × UtxoState) io =>
      let r := insert_output cfg acc.2 { hash := tx.hash, index := io.1 } io.2
      (acc.1 || r.1, r.2))
    s1

/-- `UtxoIndexer::delete_tx` (`indexer/utxo.rs` 161–177): restore every
spent pointer from the volatile store (an error when the producing tx's
output cannot be found there), then consume every produced pointer. -/
def delete_tx (cfg : UtxoConfig) (vt : TxHash → Option Tx) (u : UtxoState)
    (tx : Tx) : Except String UtxoState := do
  let u ← tx.spent.foldlM
    (fun (u : UtxoState) input => do
      let r ← Db.get_volatile_tx_output vt input
      match r with
      | none => Except.error "missing tx output in volatile db"
      | some out => Except.ok (insert_output cfg u input out).2)
    u
  Except.ok
    (tx.unspent.enum.foldl
      (fun (u : UtxoState) io =>
        (consume_input u { hash := tx.hash, index := io.1 }).2)
      u)

/-- The `Indexer` capability record of a `UtxoIndexer` built with filters
`cfg`.  (`indexer/utxo.rs` implements `insert_tx`, `delete_tx` and `clear`;
the datum hooks are the trait's defaults, which change nothing and return
`false`.  The trait's `id()` has no implementation in `utxo.rs`, so the id
string is a parameter here.) -/
def asIndexer (idStr : Bytes) (cfg : UtxoConfig) : Indexer UtxoState :=
  { id := idStr
    insert_tx := fun _ u tx => Except.ok (insert_tx cfg u tx)
    delete_tx := fun vt u tx => delete_tx cfg vt u tx
    insert_datum := fun _ u _ _ => Except.ok (false, u)
    delete_datum := fun _ u _ => Except.ok u
    clear := fun _ => Except.ok empty }

end UtxoIndexer

/-! ### Operation sequences and their chain-level meaning

The writer task applies `roll_forward` / `roll_backward` events one at a
time to the database.  An `Op` is one such event; the ghost function
`applyOpChain` is its meaning on the ideal chain — the list of blocks, in
ascending slot order, that the database currently reflects. -/

/-- One ingestion event as the writer applies it. -/
inductive Op where
  | forward (b : Block)
  | backward (p : Point)

/-- The initial, freshly created database (`Db::new` opens empty tables). -/
def emptyDb (I : Type) (ind : I) : DbState I :=
  { slots := [], volatile_tx := tempty, volatile_block := tempty
    indexer_ids := [], indexer := ind }

/-- Run a sequence of events through the orchestrator. -/
def runOps {I : Type} (indexers : List (Indexer I)) :
    DbState I → List Op → Except String (DbState I)
  | st, [] => Except.ok st
  | st, Op.forward b :: rest => do
    let st ← Db.roll_forward indexers st b
    runOps indexers st rest
  | st, Op.backward p :: rest => do
    let st ← Db.roll_backward indexers st p
    runOps indexers st rest

/-- The effect of one event on the ideal chain: a forward appends its
block; a backward to `Origin` empties the chain; a backward to a slot keeps
exactly the blocks at or before it. -/
def applyOpChain (c : List Block) : Op → List Block
  | Op.forward b => c ++ [b]
  | Op.backward Point.origin => []
  | Op.backward (Point.specific s _) => c.filter (fun b => b.slot ≤ s)

/-- The ideal chain after a sequence of events. -/
def chainAfter (c : List Block) (ops : List Op) : List Block :=
  ops.foldl applyOpChain c

/-- The transactions of a block, in block order. -/
def blockTxs (b : Block) : List Tx := b.txs.map Prod.fst

/-- All transactions of a chain, in chain order. -/
def chainTxs : List Block → List Tx
  | [] => []
  | b :: rest => blockTxs b ++ chainTxs rest

/-- The transactions of every forward event of a run (the universe a run
can ever have written to `volatile_tx`). -/
def opsTxs : List Op → List Tx
  | [] => []
  | Op.forward b :: rest => blockTxs b ++ opsTxs rest
  | Op.backward _ :: rest => opsTxs rest

/-! ### The specification-level utxo set

`specUtxos` is the set (as a partial map from pointers) that §8 "filter
soundness" describes: the currently-unspent outputs produced by valid
transactions of the chain that pass the configured filter.  `keepOutput`
is the filter exactly as `insert_output` enforces it: an output is kept
when its address does **not** appear in the configured address list and,
when an asset list is configured, some listed asset id matches one of its
assets. -/

/-- The filter `UtxoIndexer::insert_output` enforces (the negation of its
two early returns). -/
def keepOutput (cfg : UtxoConfig) (out : TxOutput) : Bool :=
  !(Option.any (fun addresses => addresses.contains out.address) cfg.addresses) &&
  !(Option.any
      (fun assets =>
        !(assets.any (fun w => out.assets.any (fun a => AssetId.matches w a))))
      cfg.assets)

/-- Whether some transaction of `txs` spends the pointer `p`. -/
def spentByChain (txs : List Tx) (p : TxOutputPointer) : Prop :=
  ∃ t ∈ txs, p ∈ t.spent

instance (txs : List Tx) (p : TxOutputPointer) : Decidable (spentByChain txs p) :=
  List.decidableBEx _ txs

/-- The currently-unspent filtered outputs of a chain: `some out` exactly
when `p` points at output `out` of a valid transaction of `txs`, `out`
passes the filter, and no transaction of `txs` spends `p`. -/
def specUtxos (cfg : UtxoConfig) (txs : List Tx) (p : TxOutputPointer) :
    Option TxOutput :=
  if spentByChain txs p then none
  else
    match txs.find? (fun t => t.hash == p.hash) with
    | some t =>
      if t.valid then Option.filter (keepOutput cfg) t.outputs[p.index]? else none
    | none => none

/-- Second definition, following the claim's words only ("whose address is
in the address whitelist"): keep an output when its address **is** in the
configured address list.  To be compared with `keepOutput`, the filter the
code enforces. -/
def keepOutputClaim (cfg : UtxoConfig) (out : TxOutput) : Bool :=
  (match cfg.addresses with
   | none => true
   | some addresses => addresses.contains out.address) &&
  !(Option.any
      (fun assets =>
        !(assets.any (fun w => out.assets.any (fun a => AssetId.matches w a))))
      cfg.assets)

/-- The utxo set the claim (with its whitelist reading) predicts. -/
def specUtxosClaim (cfg : UtxoConfig) (txs : List Tx) (p : TxOutputPointer) :
    Option TxOutput :=
  if spentByChain txs p then none
  else
    match txs.find? (fun t => t.hash == p.hash) with
    | some t =>
      if t.valid then Option.filter (keepOutputClaim cfg) t.outputs[p.index]? else none
    | none => none

/-- The flag `UtxoIndexer::insert_tx` returns for a transaction applied on
top of the chain `prior`: it consumed something present, or it inserted
some output passing the filter. -/
def keptTx (cfg : UtxoConfig) (prior : List Tx) (t : Tx) : Bool :=
  t.spent.any (fun p => (specUtxos cfg prior p).isSome) ||
  t.unspent.any (keepOutput cfg)

/-- The `txs` list of the `VolatileBlock` receipt a forward write leaves
for a block whose transactions are `l`, applied on top of `prior`: the
hashes of the kept transactions, in block order. -/
def ghostKept (cfg : UtxoConfig) : List Tx → List Tx → List TxHash
  | _, [] => []
  | prior, t :: rest =>
    (if keptTx cfg prior t then [t.hash] else []) ++
      ghostKept cfg (prior ++ [t]) rest

/-- The canonical `volatile_block` table of a chain: each block maps to its
receipt (kept tx hashes; no datum hashes, since the `UtxoIndexer` keeps no
datums). -/
def canonVB (cfg : UtxoConfig) : List Tx → List Block → BlockHash → Option VolatileBlock
  | _, [], _ => none
  | prior, b :: rest, h =>
    if h = b.hash then
      some
        { hash := b.hash, number := b.number, slot := b.slot
          txs := ghostKept cfg prior (blockTxs b), datums := [] }
    else canonVB cfg (prior ++ blockTxs b) rest h

/-- The `slots` list (descending) a chain in ascending slot order leaves. -/
def slotsOfChain (c : List Block) : List (Nat × BlockHash) :=
  (c.map (fun b => (b.slot, b.hash))).reverse

/-! ### Well-formedness of an ingestion run

The conditions under which the chain fed to the engine is a legal chain:
spends are backed by earlier valid in-chain outputs, nothing is spent
twice, hashes are fresh.  These are consensus guarantees of the source
chain, outside the engine's own checks. -/

/-- Legality of one transaction on top of the chain `prior`. -/
structure StepWf (prior : List Tx) (t : Tx) : Prop where
  spent_nodup : t.spent.Nodup
  hash_fresh : ∀ t' ∈ prior, t'.hash ≠ t.hash
  spends_ok : ∀ p ∈ t.spent,
    ¬ spentByChain prior p ∧
    ∃ t' ∈ prior, t'.hash = p.hash ∧ t'.valid = true ∧ p.index < t'.outputs.length

/-- Legality of a list of transactions appended to `prior` one by one. -/
def StepsWf : List Tx → List Tx → Prop
  | _, [] => True
  | prior, t :: rest => StepWf prior t ∧ StepsWf (prior ++ [t]) rest

/-- Legality of one event against the current chain. -/
def OpWf (c : List Block) : Op → Prop
  | Op.forward b =>
    (∀ b' ∈ c, b'.slot < b.slot) ∧
    b.hash ∉ c.map Block.hash ∧
    StepsWf (chainTxs c) (blockTxs b)
  | Op.backward _ => True

/-- Legality of a whole event sequence. -/
def OpsWf : List Block → List Op → Prop
  | _, [] => True
  | c, op :: rest => OpWf c op ∧ OpsWf (applyOpChain c op) rest

/-- Transactions agree whenever their hashes collide (the source chain's
hashes are collision-free; the same transaction may well occur twice, e.g.
when a rolled-back block is applied again). -/
def HashInj (l : List Tx) : Prop :=
  ∀ t1 ∈ l, ∀ t2 ∈ l, t1.hash = t2.hash → t1 = t2

/-- The output a `get_volatile_tx_output` lookup would deliver when it
succeeds: the producing transaction's output at the pointer's index. -/
def vtOutput (vt : TxHash → Option Tx) (q : TxOutputPointer) : Option TxOutput :=
  match vt q.hash with
  | some tx => tx.outputs[q.index]?
  | none => none

/-- Consolidated facts about an already-ingested legal chain (all derivable
by folding `StepWf` along it). -/
structure PriorWf (prior : List Tx) : Prop where
  spends_backed : ∀ t ∈ prior, ∀ p ∈ t.spent,
    ∃ t' ∈ prior, t'.hash = p.hash ∧ t'.valid = true ∧ p.index < t'.outputs.length
  hashes_nodup : (prior.map Tx.hash).Nodup
  spent_once : ∀ p : TxOutputPointer, ∀ t1 ∈ prior, ∀ t2 ∈ prior,
    p ∈ t1.spent → p ∈ t2.spent → t1 = t2
  spent_nodup : ∀ t ∈ prior, t.spent.Nodup

/-- The simulation invariant tying a database state driven by a single
`UtxoIndexer` to the ideal chain `C` it currently reflects.  `allTxs` is
the universe of transactions of the whole run (everything that was ever a
candidate for `volatile_tx`). -/
structure UtxoInv (idB : Bytes) (cfg : UtxoConfig) (allTxs : List Tx)
    (C : List Block) (st : DbState UtxoState) : Prop where
  slots_eq : st.slots = slotsOfChain C
  slots_mono : List.Chain' (fun b b' => b.slot < b'.slot) C
  wf : StepsWf [] (chainTxs C)
  pwf : PriorWf (chainTxs C)
  sub : ∀ t ∈ chainTxs C, t ∈ allTxs
  bhashes_nodup : (C.map Block.hash).Nodup
  vb_eq : ∀ h, st.volatile_block h = canonVB cfg [] C h
  vt_truth : ∀ h t, st.volatile_tx h = some t → t ∈ allTxs ∧ t.hash = h
  utxos_eq : ∀ q, st.indexer.utxos q = specUtxos cfg (chainTxs C) q
  ids_ok : st.indexer_ids = [] ∨ st.indexer_ids = [idB]

/-! ### Helper definitions used in theorem statements -/

/-- The greatest slot key of a `slots` list. -/
def slotsMaxKey (l : List (Nat × BlockHash)) : Nat :=
  l.foldr (fun e m => max e.1 m) 0

/-- Point lookup in a `slots` list. -/
def slotsLookup (l : List (Nat × BlockHash)) (k : Nat) : Option BlockHash :=
  (l.find? (fun e => e.1 == k)).map Prod.snd

/-- Ascending bytewise order, the order LMDB keeps `Str` keys in. -/
def idsSortedB : List Bytes → Bool
  | [] => true
  | [_] => true
  | a :: b :: r => bytesLt a b && idsSortedB (b :: r)

/-! ### Concrete fixtures

Small concrete blocks, transactions and states used by the witness and
counterexample theorems below. -/

/-- A produced output at address `[10]`. -/
def outA : TxOutput := { address := [10], lovelace := 5, assets := [], datum_hash := none }

/-- A produced output at address `[11]`. -/
def outB : TxOutput := { address := [11], lovelace := 4, assets := [], datum_hash := none }

/-- A valid transaction with no inputs producing `outA`. -/
def txA : Tx :=
  { hash := [1], inputs := [], outputs := [outA], collateral := []
    collateral_return := none, reference_inputs := [], mints := [], scripts := []
    native_scripts := [], valid := true }

/-- A valid transaction spending `txA`'s output and producing `outB`. -/
def txB : Tx :=
  { hash := [2], inputs := [{ hash := [1], index := 0 }], outputs := [outB]
    collateral := [], collateral_return := none, reference_inputs := [], mints := []
    scripts := [], native_scripts := [], valid := true }

/-- An invalid transaction with an input, a collateral input and a
collateral-return output. -/
def txInvalid : Tx :=
  { hash := [3], inputs := [{ hash := [1], index := 0 }]
    outputs := [outB]
    collateral := [{ hash := [2], index := 0 }]
    collateral_return := some outA
    reference_inputs := [], mints := [], scripts := [], native_scripts := []
    valid := false }

/-- The block hash `0xAA…` of the spec's scenarios. -/
def hashA : BlockHash := [170]

/-- The block hash `0xBB…` of the spec's scenarios. -/
def hashB : BlockHash := [187]

/-- Block at slot 10 carrying `txA`. -/
def blockA : Block := { hash := hashA, number := 1, slot := 10, txs := [(txA, [])] }

/-- Block at slot 11 carrying `txB`. -/
def blockB : Block := { hash := hashB, number := 2, slot := 11, txs := [(txB, [])] }

/-- A `UtxoIndexer` with no filters. -/
def uixAll : Indexer UtxoState := UtxoIndexer.asIndexer [117] ⟨none, none⟩

/-- The fresh database with a `UtxoIndexer`'s state. -/
def dbEmpty : DbState UtxoState := emptyDb UtxoState UtxoIndexer.empty

/-- An address list containing `outA`'s address. -/
def cfgAddrA : UtxoConfig := ⟨some [[10]], none⟩

/-- A fresh database with no indexer state (used where the indexers are
irrelevant). -/
def dbUnit : DbState Unit := emptyDb Unit ()

/-- A database whose spine holds `blockA` and whose volatile tables hold its
body, with a trivially-empty indexer state; the state `roll_forward blockA`
reaches from empty with a keep-nothing indexer whose id is `"i"`. -/
def dbOne : DbState Unit :=
  { slots := [(10, hashA)]
    volatile_tx := tput tempty txA.hash txA
    volatile_block :=
      tput tempty hashA { hash := hashA, number := 1, slot := 10, txs := [txA.hash], datums := [] }
    indexer_ids := [[105]]
    indexer := () }

/-- A keep-nothing indexer with id `"i"` (every hook is the trait default). -/
def unitIndexer : Indexer Unit :=
  { id := [105]
    insert_tx := fun _ u _ => Except.ok (false, u)
    delete_tx := fun _ u _ => Except.ok u
    insert_datum := fun _ u _ _ => Except.ok (false, u)
    delete_datum := fun _ u _ => Except.ok u
    clear := fun u => Except.ok u }

/-- The volatile receipt of `blockA` with `txA` kept. -/
def vbA : VolatileBlock :=
  { hash := hashA, number := 1, slot := 10, txs := [txA.hash], datums := [] }

/-- The volatile receipt of `blockB` with `txB` kept. -/
def vbB : VolatileBlock :=
  { hash := hashB, number := 2, slot := 11, txs := [txB.hash], datums := [] }

/-- A two-block database (blocks at slots 10 and 11 with their bodies). -/
def dbTwo : DbState Unit :=
  { slots := [(11, hashB), (10, hashA)]
    volatile_tx := tput (tput tempty txA.hash txA) txB.hash txB
    volatile_block := tput (tput tempty hashA vbA) hashB vbB
    indexer_ids := [[105]]
    indexer := () }

/-- The round trip of the spec's scenario 2 run with an unfiltered
`UtxoIndexer`: roll `blockA` then `blockB` forward from empty, then roll
back to `blockB`'s parent point `Specific(10, 0xAA)`; probe the spine, the
`volatile_block` entry of `blockB`, and whether `volatile_tx` still holds
`txB`, alongside the same probes of the state before `blockB` was
applied. -/
def c1Probe : Except String
    (List (Nat × BlockHash) × Option VolatileBlock × Bool ×
      List (Nat × BlockHash) × Bool) := do
  let s1 ← Db.roll_forward [uixAll] dbEmpty blockA
  let s2 ← Db.roll_forward [uixAll] s1 blockB
  let s3 ← Db.roll_backward [uixAll] s2 (Point.specific 10 hashA)
  Except.ok (s3.slots, s3.volatile_block hashB, (s3.volatile_tx txB.hash).isSome,
    s1.slots, (s1.volatile_tx txB.hash).isSome)

/-- The database after running `blockA` from empty through a `UtxoIndexer`
configured with the address list `[[10]]`. -/
def dbAfterA : DbState UtxoState :=
  match runOps [UtxoIndexer.asIndexer [117] cfgAddrA]
      (emptyDb UtxoState UtxoIndexer.empty) [Op.forward blockA] with
  | Except.ok st => st
  | Except.error _ => emptyDb UtxoState UtxoIndexer.empty

/-! ## Claims -/

/-- C3 (counterexample): `txInvalid` is invalid and carries the
collateral-return output `outA`, yet `Tx::unspent` yields nothing — not the
collateral-return output the claim promises. -/
theorem unspent_ignores_collateral_return :
    txInvalid.valid = false ∧ txInvalid.collateral_return = some outA ∧
    Tx.unspent txInvalid ≠ [outA] := by
  refine ⟨rfl, rfl, ?_⟩
  decide

/-- C3 (amended): when `valid` is true, `spent()` yields exactly `inputs`
and `unspent()` exactly `outputs`; when `valid` is false, `spent()` yields
exactly `collateral` and `unspent()` yields nothing at all — the
collateral-return output is never yielded, present or not. -/
theorem spent_unspent_views (t : Tx) :
    (t.valid = true → Tx.spent t = t.inputs ∧ Tx.unspent t = t.outputs) ∧
    (t.valid = false → Tx.spent t = t.collateral ∧ Tx.unspent t = []) := by
  constructor <;> intro h <;>
    simp [Tx.spent, Tx.unspent, h]

/-- C3 (witness): the amended views at the concrete transactions `txA`
(valid) and `txInvalid` (invalid). -/
theorem spent_unspent_views_witness :
    (Tx.spent txA = txA.inputs ∧ Tx.unspent txA = txA.outputs) ∧
    (Tx.spent txInvalid = txInvalid.collateral ∧ Tx.unspent txInvalid = []) :=
  ⟨(spent_unspent_views txA).1 rfl, (spent_unspent_views txInvalid).2 rfl⟩

theorem slotsDescB_tail {a : Nat × BlockHash} {l : List (Nat × BlockHash)}
    (h : slotsDescB (a :: l) = true) : slotsDescB l = true := by
  cases l with
  | nil => rfl
  | cons b r => exact (Bool.and_eq_true_iff.mp h).2

theorem slotsDescB_lt {a : Nat × BlockHash} {l : List (Nat × BlockHash)}
    (h : slotsDescB (a :: l) = true) : ∀ e ∈ l, e.1 < a.1 := by
  induction l generalizing a with
  | nil => simp
  | cons b r ih =>
    have h1 : b.1 < a.1 := by
      have := (Bool.and_eq_true_iff.mp h).1
      exact of_decide_eq_true this
    intro e he
    rcases List.mem_cons.mp he with rfl | hr
    · exact h1
    · exact lt_trans (ih (slotsDescB_tail h) e hr) h1

theorem slotsMaxKey_le {l : List (Nat × BlockHash)} {n : Nat}
    (h : ∀ e ∈ l, e.1 ≤ n) : slotsMaxKey l ≤ n := by
  induction l with
  | nil => exact Nat.zero_le n
  | cons e r ih =>
    refine max_le (h e (List.mem_cons_self e r)) (ih ?_)
    exact fun e' he' => h e' (List.mem_cons_of_mem e he')

theorem slotsMaxKey_head {a : Nat × BlockHash} {l : List (Nat × BlockHash)}
    (h : slotsDescB (a :: l) = true) : slotsMaxKey (a :: l) = a.1 := by
  have : slotsMaxKey l ≤ a.1 :=
    slotsMaxKey_le (fun e he => le_of_lt (slotsDescB_lt h e he))
  simp only [slotsMaxKey, List.foldr_cons]
  exact max_eq_left this

/-- C8: on a well-formed `slots` table, `tip()` is `Origin` exactly when the
table is empty, and otherwise `Specific(max_slot, slots[max_slot])`.  (In
the embedding `tip` is a pure function of the state — it performs no
writes by construction, mirroring the read-only transaction it uses.) -/
theorem tip_returns_max_slot {I : Type} (st : DbState I)
    (hs : slotsDescB st.slots = true) :
    (st.slots = [] → Db.tip st = Point.origin) ∧
    (st.slots ≠ [] →
      ∃ h, slotsLookup st.slots (slotsMaxKey st.slots) = some h ∧
        Db.tip st = Point.specific (slotsMaxKey st.slots) h) := by
  constructor
  · intro h
    simp [Db.tip, h]
  · intro hne
    obtain ⟨a, l, hsl⟩ := List.exists_cons_of_ne_nil hne
    have hmax : slotsMaxKey st.slots = a.1 := by
      rw [hsl]; exact slotsMaxKey_head (hsl ▸ hs)
    refine ⟨a.2, ?_, ?_⟩
    · rw [hmax, hsl]
      simp [slotsLookup, List.find?]
    · rw [hmax]
      simp [Db.tip, hsl]

/-- C8 (witness): the tip of the concrete one-block database `dbOne`. -/
theorem tip_returns_max_slot_witness :
    ∃ h, slotsLookup dbOne.slots (slotsMaxKey dbOne.slots) = some h ∧
      Db.tip dbOne = Point.specific (slotsMaxKey dbOne.slots) h :=
  (tip_returns_max_slot dbOne (by decide)).2 (by decide)

theorem bytesLt_total : ∀ a b : Bytes, bytesLt a b = false → a ≠ b → bytesLt b a = true := by
  intro a
  induction a with
  | nil =>
    intro b h1 h2
    cases b with
    | nil => exact absurd rfl h2
    | cons y ys => simp [bytesLt] at h1
  | cons x xs ih =>
    intro b h1 h2
    cases b with
    | nil => rfl
    | cons y ys =>
      simp only [bytesLt, Bool.or_eq_false_iff, decide_eq_false_iff_not] at h1
      by_cases hxy : x = y
      · subst hxy
        have hlt : bytesLt xs ys = false := by
          have := h1.2
          simpa using this
        have hne : xs ≠ ys := fun hh => h2 (by rw [hh])
        simp [bytesLt, ih ys hlt hne]
      · have hyx : y < x := lt_of_le_of_ne (Nat.le_of_not_lt h1.1) (fun hh => hxy hh.symm)
        simp [bytesLt, hyx]

theorem idPut_mem (l : List Bytes) (k x : Bytes) :
    x ∈ Db.idPut l k ↔ x = k ∨ x ∈ l := by
  induction l with
  | nil => simp [Db.idPut]
  | cons a r ih =>
    simp only [Db.idPut]
    by_cases h1 : bytesLt k a = true
    · rw [if_pos h1]
      simp
    · rw [if_neg h1]
      by_cases h2 : k = a
      · rw [if_pos h2]
        subst h2
        simp only [List.mem_cons]
        tauto
      · rw [if_neg h2]
        simp only [List.mem_cons, ih]
        tauto

theorem idsSortedB_cons_cons {a b : Bytes} {r : List Bytes} :
    idsSortedB (a :: b :: r) = true ↔ bytesLt a b = true ∧ idsSortedB (b :: r) = true := by
  simp [idsSortedB]

theorem idPut_sorted (k : Bytes) :
    ∀ l, idsSortedB l = true → idsSortedB (Db.idPut l k) = true := by
  intro l
  induction l with
  | nil => intro _; rfl
  | cons a r ih =>
    intro h
    simp only [Db.idPut]
    by_cases h1 : bytesLt k a = true
    · rw [if_pos h1]
      exact idsSortedB_cons_cons.mpr ⟨h1, h⟩
    · rw [if_neg h1]
      by_cases h2 : k = a
      · rw [if_pos h2]
        exact h
      · rw [if_neg h2]
        have h1f : bytesLt k a = false := by simpa using h1
        have hak : bytesLt a k = true := bytesLt_total k a h1f h2
        cases r with
        | nil => exact idsSortedB_cons_cons.mpr ⟨hak, rfl⟩
        | cons b r' =>
          have hab : bytesLt a b = true := (idsSortedB_cons_cons.mp h).1
          have hr : idsSortedB (b :: r') = true := (idsSortedB_cons_cons.mp h).2
          by_cases hkb : bytesLt k b = true
          · simp only [Db.idPut, if_pos hkb]
            exact idsSortedB_cons_cons.mpr ⟨hak, idsSortedB_cons_cons.mpr ⟨hkb, hr⟩⟩
          · by_cases hkb2 : k = b
            · simp only [Db.idPut, if_neg hkb, if_pos hkb2]
              exact h
            · simp only [Db.idPut, if_neg hkb, if_neg hkb2]
              have hrec := ih hr
              simp only [Db.idPut, if_neg hkb, if_neg hkb2] at hrec
              exact idsSortedB_cons_cons.mpr ⟨hab, hrec⟩

theorem foldl_idPut_mem (ids : List Bytes) :
    ∀ (l : List Bytes) (x : Bytes),
      x ∈ ids.foldl Db.idPut l ↔ x ∈ ids ∨ x ∈ l := by
  induction ids with
  | nil => simp
  | cons a r ih =>
    intro l x
    simp only [List.foldl_cons, ih, idPut_mem, List.mem_cons]
    tauto

theorem foldl_idPut_sorted (ids : List Bytes) :
    ∀ l, idsSortedB l = true → idsSortedB (ids.foldl Db.idPut l) = true := by
  induction ids with
  | nil => exact fun _ h => h
  | cons a r ih => exact fun l h => ih (Db.idPut l a) (idPut_sorted a l h)

/-- C4 (counterexample): provisioning a fresh database with the live
indexer list `["b", "a"]` (ids as UTF-8 bytes, `[[98], [97]]`) stores the
keys as `["a", "b"]` — the table sorts them — so re-running the identity
check with the *same* live list, which matches the recorded list in both
membership and order, fails instead of succeeding. -/
theorem indexer_ids_order_counterexample :
    Db.assert_indexer_ids dbUnit [[98], [97]]
        = Except.ok { dbUnit with indexer_ids := [[97], [98]] } ∧
    Db.assert_indexer_ids { dbUnit with indexer_ids := [[97], [98]] } [[98], [97]]
        = Except.error "indexer ids don't match" :=
  ⟨rfl, rfl⟩

/-- C4 (amended): on first run the check records the live ids as the *key
set* of the `indexer_ids` table — stored in ascending bytewise order, not
in list order, with a `"empty"` sentinel when the list is empty — and
mutates nothing else; on every later run it succeeds exactly when the live
id list equals the stored key list in the table's order, and any mismatch
is an error that mutates nothing. -/
theorem indexer_ids_check {I : Type} (st : DbState I) (ids : List Bytes) :
    (st.indexer_ids = [] →
      Db.assert_indexer_ids st ids
          = Except.ok { st with indexer_ids := Db.idsStored ids } ∧
      idsSortedB (Db.idsStored ids) = true ∧
      (∀ x, x ∈ Db.idsStored ids ↔ x ∈ ids ∨ (ids = [] ∧ x = Db.emptySentinel))) ∧
    (st.indexer_ids ≠ [] →
      (Db.assert_indexer_ids st ids = Except.ok st ↔ st.indexer_ids = ids) ∧
      (st.indexer_ids ≠ ids →
        Db.assert_indexer_ids st ids = Except.error "indexer ids don't match")) := by
  constructor
  · intro h0
    have hlen : st.indexer_ids.length = 0 := by rw [h0]; rfl
    refine ⟨by simp [Db.assert_indexer_ids, hlen], ?_, ?_⟩
    · simp only [Db.idsStored]
      by_cases he : ids.isEmpty
      · rw [if_pos he]
        exact idPut_sorted Db.emptySentinel _ (foldl_idPut_sorted ids [] rfl)
      · rw [if_neg he]
        exact foldl_idPut_sorted ids [] rfl
    · intro x
      simp only [Db.idsStored]
      by_cases he : ids.isEmpty
      · have h' : ids = [] := by simpa using he
        subst h'
        simp [idPut_mem]
      · have hne' : ids ≠ [] := by simpa using he
        rw [if_neg he]
        simp only [foldl_idPut_mem, List.not_mem_nil, or_false]
        constructor
        · exact Or.inl
        · rintro (hx | ⟨hnil, _⟩)
          · exact hx
          · exact absurd hnil hne'
  · intro h0
    have hlen : ¬ st.indexer_ids.length = 0 := by
      simpa [List.length_eq_zero] using h0
    constructor
    · constructor
      · intro hok
        by_cases he : st.indexer_ids = ids
        · exact he
        · simp only [Db.assert_indexer_ids, if_neg hlen, if_neg he] at hok
          exact absurd hok (by simp)
      · intro he
        simp only [Db.assert_indexer_ids, if_neg hlen]
        rw [if_pos he]
    · intro he
      simp only [Db.assert_indexer_ids, if_neg hlen]
      rw [if_neg he]

/-- C4 (witness): the amended check at concrete inputs — a first run with
ids `[[98], [97]]` stores sorted keys covering exactly those ids, and a
subsequent run over a matching stored list succeeds. -/
theorem indexer_ids_check_witness :
    (Db.assert_indexer_ids dbUnit [[98], [97]]
        = Except.ok { dbUnit with indexer_ids := Db.idsStored [[98], [97]] } ∧
      idsSortedB (Db.idsStored [[98], [97]]) = true ∧
      (∀ x, x ∈ Db.idsStored [[98], [97]] ↔
        x ∈ [[98], [97]] ∨ ([[98], [97]] = ([] : List Bytes) ∧ x = Db.emptySentinel))) ∧
    (Db.assert_indexer_ids { dbUnit with indexer_ids := [[97], [98]] } [[97], [98]]
        = Except.ok { dbUnit with indexer_ids := [[97], [98]] } ↔
      ([[97], [98]] : List Bytes) = [[97], [98]]) :=
  by
  constructor
  · exact (indexer_ids_check dbUnit [[98], [97]]).1 rfl
  · have h2 := (indexer_ids_check
      { dbUnit with indexer_ids := [[97], [98]] } [[97], [98]]).2
    have hne : ({ dbUnit with indexer_ids := [[97], [98]] } : DbState Unit).indexer_ids ≠ [] := by
      decide
    exact (h2 hne).1

/-- C10: `roll_backward` at `Specific(slot, hash)` never consults the hash:
for any two hashes the whole computation — final state and
success/failure — is identical. -/
theorem roll_backward_hash_independent {I : Type} (indexers : List (Indexer I))
    (st : DbState I) (s : Nat) (h1 h2 : BlockHash) :
    Db.roll_backward indexers st (Point.specific s h1) =
      Db.roll_backward indexers st (Point.specific s h2) := rfl

/-- C5: at page size 4096 and `map_size = 3 GiB + 1` with no page used, the
free space (3 GiB + 1) exceeds 2 GiB so a resize triggers, and the size the
code picks is `4 GiB + 2` — `new + new % page`, not a multiple of the page
size — while rounding `map_size + 1 GiB` up to the next page multiple (what
the claim and the code's own comment describe) gives `4 GiB + 4096`. -/
theorem resize_picks_unaligned_size :
    Env.resize_check 4096 (3 * Env.gib + 1) 0 = some (4 * Env.gib + 2) ∧
    Env.round_up_to_page ((3 * Env.gib + 1) + Env.gib) 4096 = 4 * Env.gib + 4096 ∧
    (4 * Env.gib + 2) % 4096 ≠ 0 := by
  refine ⟨?_, ?_, ?_⟩ <;> decide

/-- C9: when `pending_fetches` is non-empty, the flush errors exactly when
the returned block sequence's length differs from the pending list's, and
otherwise emits one `RollForward` event per returned block, in the returned
order. -/
theorem flush_length_check (pending : List (Point × Tip)) (blocks : List Bytes)
    (hne : pending ≠ []) :
    (blocks.length ≠ pending.length →
      Sync.flush_pending_fetches pending blocks =
        Except.error "fetched block count differs from expected") ∧
    (blocks.length = pending.length →
      ∀ lastE, pending.getLast? = some lastE →
        Sync.flush_pending_fetches pending blocks =
          Except.ok (blocks.map (fun b => SyncEvent.rollForwardEv b lastE.2))) := by
  obtain ⟨a, l, rfl⟩ := List.exists_cons_of_ne_nil hne
  obtain ⟨lastE, hlast⟩ : ∃ e, (a :: l).getLast? = some e := by
    cases hl : (a :: l).getLast? with
    | none => simp at hl
    | some e => exact ⟨e, rfl⟩
  constructor
  · intro hlen
    simp only [Sync.flush_pending_fetches, List.head?_cons, hlast]
    rw [if_pos (by simpa using hlen)]
  · intro hlen lastE' hlast'
    rw [hlast'] at hlast
    cases hlast
    simp only [Sync.flush_pending_fetches, List.head?_cons, hlast']
    rw [if_neg (by simpa using hlen)]

/-- C9 (witness): the two branches at a singleton pending list. -/
theorem flush_length_check_witness :
    ([] : List Bytes).length ≠
        ([(Point.origin, ({ point := Point.origin, block_no := 5 } : Tip))] :
          List (Point × Tip)).length ∧
    Sync.flush_pending_fetches
        [(Point.origin, { point := Point.origin, block_no := 5 })] [] =
      Except.error "fetched block count differs from expected" ∧
    Sync.flush_pending_fetches
        [(Point.origin, { point := Point.origin, block_no := 5 })] [[7]] =
      Except.ok [SyncEvent.rollForwardEv [7] { point := Point.origin, block_no := 5 }] := by
  refine ⟨by decide, ?_, ?_⟩
  · exact (flush_length_check
      [(Point.origin, { point := Point.origin, block_no := 5 })] []
      (by decide)).1 (by decide)
  · exact (flush_length_check
      [(Point.origin, { point := Point.origin, block_no := 5 })] [[7]]
      (by decide)).2 (by decide) (Point.origin, { point := Point.origin, block_no := 5 }) rfl

/-- C1: the round trip of scenario 2 evaluated on the code.  After
`roll_forward(blockB)` followed by `roll_backward(Specific(10, 0xAA))`, the
spine (`slots`) and `volatile_block` are restored to their pre-`blockB`
content — but `volatile_tx` still holds `txB`: `roll_backward` deletes only
the `slots` and `volatile_block` entries and never deletes from
`volatile_tx`, while the claim (and spec scenario 2) requires
`volatile_tx[T2.hash]` to be absent. -/
theorem roll_backward_keeps_volatile_tx :
    c1Probe = Except.ok ([(10, hashA)], none, true, [(10, hashA)], false) := rfl

theorem vt_del_foldl_fields {I : Type} (l : List TxHash) :
    ∀ st : DbState I,
      ((l.foldl (fun (st : DbState I) th =>
          { st with volatile_tx := tdel st.volatile_tx th }) st).slots = st.slots ∧
       (l.foldl (fun (st : DbState I) th =>
          { st with volatile_tx := tdel st.volatile_tx th }) st).volatile_block
          = st.volatile_block ∧
       (l.foldl (fun (st : DbState I) th =>
          { st with volatile_tx := tdel st.volatile_tx th }) st).indexer = st.indexer ∧
       (l.foldl (fun (st : DbState I) th =>
          { st with volatile_tx := tdel st.volatile_tx th }) st).indexer_ids
          = st.indexer_ids) := by
  induction l with
  | nil => exact fun st => ⟨rfl, rfl, rfl, rfl⟩
  | cons t r ih =>
    intro st
    simpa only [List.foldl_cons] using
      ih { st with volatile_tx := tdel st.volatile_tx t }

theorem vt_del_foldl_vt {I : Type} (l : List TxHash) :
    ∀ (st : DbState I) (th : TxHash),
      (l.foldl (fun (st : DbState I) t =>
          { st with volatile_tx := tdel st.volatile_tx t }) st).volatile_tx th
        = if th ∈ l then none else st.volatile_tx th := by
  induction l with
  | nil => intro st th; simp
  | cons t r ih =>
    intro st th
    simp only [List.foldl_cons, ih]
    by_cases hm : th ∈ r
    · simp [hm]
    · by_cases he : th = t
      · subst he
        simp [hm, tdel]
      · simp [hm, he, tdel]

theorem trim_blocks_fields {I : Type} (snap : DbState I) (l : List (Nat × BlockHash)) :
    ∀ st : DbState I,
      (Db.trim_blocks snap l st).slots = st.slots ∧
      (Db.trim_blocks snap l st).indexer = st.indexer ∧
      (Db.trim_blocks snap l st).indexer_ids = st.indexer_ids := by
  induction l with
  | nil => exact fun st => ⟨rfl, rfl, rfl⟩
  | cons e rest ih =>
    intro st
    simp only [Db.trim_blocks]
    cases snap.volatile_block e.2 with
    | none => exact ⟨rfl, rfl, rfl⟩
    | some vb =>
      have hf := vt_del_foldl_fields (I := I) vb.txs.reverse st
      have hr := ih { vb.txs.reverse.foldl (fun (st : DbState I) th =>
          { st with volatile_tx := tdel st.volatile_tx th }) st with
        volatile_block := tdel (vb.txs.reverse.foldl (fun (st : DbState I) th =>
          { st with volatile_tx := tdel st.volatile_tx th }) st).volatile_block e.2 }
      exact ⟨hr.1.trans hf.1, hr.2.1.trans hf.2.2.1, hr.2.2.trans hf.2.2.2⟩

theorem trim_blocks_vb {I : Type} (snap : DbState I) (l : List (Nat × BlockHash)) :
    ∀ (st : DbState I) (h : BlockHash),
      (Db.trim_blocks snap l st).volatile_block h = st.volatile_block h ∨
        ((Db.trim_blocks snap l st).volatile_block h = none ∧ h ∈ l.map Prod.snd) := by
  induction l with
  | nil => exact fun st h => Or.inl rfl
  | cons e rest ih =>
    intro st h
    simp only [Db.trim_blocks]
    cases snap.volatile_block e.2 with
    | none => exact Or.inl rfl
    | some vb =>
      set st1 := vb.txs.reverse.foldl (fun (st : DbState I) th =>
        { st with volatile_tx := tdel st.volatile_tx th }) st with hst1
      have hfields := vt_del_foldl_fields (I := I) vb.txs.reverse st
      rcases ih { st1 with volatile_block := tdel st1.volatile_block e.2 } h with hl | ⟨hn, hm⟩
      · rw [hl]
        by_cases he : h = e.2
        · refine Or.inr ⟨?_, ?_⟩
          · simp [tdel, he]
          · subst he
            exact List.mem_cons_self _ _
        · refine Or.inl ?_
          show tdel st1.volatile_block e.2 h = st.volatile_block h
          rw [show tdel st1.volatile_block e.2 h = st1.volatile_block h from if_neg he]
          rw [hfields.2.1]
      · exact Or.inr ⟨hn, List.mem_cons_of_mem _ hm⟩

theorem trim_blocks_vt {I : Type} (snap : DbState I) (l : List (Nat × BlockHash)) :
    ∀ (st : DbState I) (th : TxHash),
      (Db.trim_blocks snap l st).volatile_tx th = st.volatile_tx th ∨
        ((Db.trim_blocks snap l st).volatile_tx th = none ∧
          ∃ e ∈ l, ∃ vb, snap.volatile_block e.2 = some vb ∧ th ∈ vb.txs) := by
  induction l with
  | nil => exact fun st th => Or.inl rfl
  | cons e rest ih =>
    intro st th
    simp only [Db.trim_blocks]
    cases hvb : snap.volatile_block e.2 with
    | none => exact Or.inl rfl
    | some vb =>
      set st1 := vb.txs.reverse.foldl (fun (st : DbState I) th =>
        { st with volatile_tx := tdel st.volatile_tx th }) st with hst1
      have hval : st1.volatile_tx th = if th ∈ vb.txs.reverse then none else st.volatile_tx th :=
        vt_del_foldl_vt (I := I) vb.txs.reverse st th
      rcases ih { st1 with volatile_block := tdel st1.volatile_block e.2 } th with hl | ⟨hn, e', he', hrest⟩
      · rw [hl]
        show st1.volatile_tx th = st.volatile_tx th ∨ _
        by_cases hm : th ∈ vb.txs
        · refine Or.inr ⟨?_, e, List.mem_cons_self _ _, vb, hvb, hm⟩
          rw [hval, if_pos (List.mem_reverse.mpr hm)]
        · refine Or.inl ?_
          rw [hval, if_neg (fun hc => hm (List.mem_reverse.mp hc))]
      · exact Or.inr ⟨hn, e', List.mem_cons_of_mem _ he', hrest⟩

/-- C6: `trim_volatile` leaves `tip()`, the whole `slots` table, the
indexer-owned state and `indexer_ids` unchanged; the only entries it may
remove are `volatile_block` entries keyed by a block hash among the `slots`
entries older than the newest `max_rollback_blocks` ones, and `volatile_tx`
entries listed in the receipt of such an old block. -/
theorem trim_preserves_frame {I : Type} (st : DbState I) (K : Nat)
    (hs : slotsDescB st.slots = true) :
    Db.tip (Db.trim_volatile st K) = Db.tip st ∧
    (Db.trim_volatile st K).slots = st.slots ∧
    (Db.trim_volatile st K).indexer = st.indexer ∧
    (Db.trim_volatile st K).indexer_ids = st.indexer_ids ∧
    (∀ h, (Db.trim_volatile st K).volatile_block h = st.volatile_block h ∨
      ((Db.trim_volatile st K).volatile_block h = none ∧
        h ∈ (st.slots.drop K).map Prod.snd)) ∧
    (∀ th, (Db.trim_volatile st K).volatile_tx th = st.volatile_tx th ∨
      ((Db.trim_volatile st K).volatile_tx th = none ∧
        ∃ e ∈ st.slots.drop K, ∃ vb, st.volatile_block e.2 = some vb ∧ th ∈ vb.txs)) := by
  have hfields := trim_blocks_fields st (st.slots.drop K) st
  refine ⟨?_, hfields.1, hfields.2.1, hfields.2.2, ?_, ?_⟩
  · show Db.tip (Db.trim_blocks st (st.slots.drop K) st) = Db.tip st
    unfold Db.tip
    rw [hfields.1]
  · exact fun h => trim_blocks_vb st (st.slots.drop K) st h
  · exact fun th => trim_blocks_vt st (st.slots.drop K) st th

/-- C6 (witness): trimming the concrete two-block database `dbTwo` with
retention 1. -/
theorem trim_preserves_frame_witness :
    slotsDescB dbTwo.slots = true ∧
    (Db.tip (Db.trim_volatile dbTwo 1) = Db.tip dbTwo ∧
      (Db.trim_volatile dbTwo 1).slots = dbTwo.slots ∧
      (Db.trim_volatile dbTwo 1).indexer = dbTwo.indexer ∧
      (Db.trim_volatile dbTwo 1).indexer_ids = dbTwo.indexer_ids ∧
      (∀ h, (Db.trim_volatile dbTwo 1).volatile_block h = dbTwo.volatile_block h ∨
        ((Db.trim_volatile dbTwo 1).volatile_block h = none ∧
          h ∈ (dbTwo.slots.drop 1).map Prod.snd)) ∧
      (∀ th, (Db.trim_volatile dbTwo 1).volatile_tx th = dbTwo.volatile_tx th ∨
        ((Db.trim_volatile dbTwo 1).volatile_tx th = none ∧
          ∃ e ∈ dbTwo.slots.drop 1, ∃ vb, dbTwo.volatile_block e.2 = some vb ∧
            th ∈ vb.txs))) :=
  ⟨by decide, trim_preserves_frame dbTwo 1 (by decide)⟩

/-- C7: rolling back to a point at or after the current tip's slot is a
no-op — given a database whose `indexer_ids` already records the live
indexer list (any database the engine has run against), the call returns
`Ok` and the state, every table included, is returned unchanged. -/
theorem roll_backward_noop {I : Type} (indexers : List (Indexer I)) (st : DbState I)
    (s : Nat) (h : BlockHash) (t0 : Nat) (h0 : BlockHash)
    (hs : slotsDescB st.slots = true)
    (htip : Db.tip st = Point.specific t0 h0)
    (hle : t0 ≤ s)
    (hids : st.indexer_ids = indexers.map (fun i => i.id))
    (hne : st.indexer_ids ≠ []) :
    Db.roll_backward indexers st (Point.specific s h) = Except.ok st := by
  have hlen : ¬ st.indexer_ids.length = 0 := by
    simpa [List.length_eq_zero] using hne
  have hassert : Db.assert_indexer_ids st (indexers.map (fun i => i.id))
      = Except.ok st := by
    simp only [Db.assert_indexer_ids, if_neg hlen]
    rw [if_pos hids]
  obtain ⟨a, l, hsl⟩ : ∃ a l, st.slots = a :: l := by
    cases hsl : st.slots with
    | nil => rw [Db.tip, hsl] at htip; exact absurd htip (by simp)
    | cons a l => exact ⟨a, l, rfl⟩
  have ha1 : a.1 = t0 := by
    rw [Db.tip, hsl] at htip
    exact (Point.specific.injEq _ _ _ _).mp htip |>.1
  have hfil : st.slots.filter (fun e => s + 1 ≤ e.1) = [] := by
    rw [hsl]
    rw [List.filter_eq_nil_iff]
    intro e he
    rcases List.mem_cons.mp he with rfl | hr
    · simp only [decide_eq_true_eq]
      omega
    · have := slotsDescB_lt (hsl ▸ hs) e hr
      simp only [decide_eq_true_eq]
      omega
  unfold Db.roll_backward
  rw [hassert]
  show (st.slots.filter (fun e => s + 1 ≤ e.1)).foldlM
      (Db.roll_backward_slot indexers st) st = Except.ok st
  rw [hfil]
  rfl

/-- C7 (witness): rolling `dbOne` (tip at slot 10) back to slot 10 with the
keep-nothing indexer is a no-op. -/
theorem roll_backward_noop_witness :
    Db.roll_backward [unitIndexer] dbOne (Point.specific 10 hashB) = Except.ok dbOne :=
  roll_backward_noop [unitIndexer] dbOne 10 hashB 10 hashA (by decide) (by decide)
    (by decide) (by decide) (by decide)

/-- C2 (counterexample): build a `UtxoIndexer` whose address filter list
contains exactly `outA`'s address (`cfgAddrA`) and roll forward `blockA`,
whose valid transaction `txA` produces `outA` at that address.  Under the
claim's whitelist reading the indexed utxo set contains
`((txA.hash, 0), outA)`; the code stores nothing — the address list is an
exclusion filter. -/
theorem utxo_address_filter_counterexample :
    (runOps [UtxoIndexer.asIndexer [117] cfgAddrA] dbEmpty [Op.forward blockA]).map
        (fun st => st.indexer.utxos { hash := txA.hash, index := 0 })
      = Except.ok none ∧
    specUtxosClaim cfgAddrA (chainTxs (chainAfter [] [Op.forward blockA]))
        { hash := txA.hash, index := 0 } = some outA := by
  constructor
  · rfl
  · rfl

/-! ### C2: specification-side lemmas -/

theorem spentByChain_append (A B : List Tx) (p : TxOutputPointer) :
    spentByChain (A ++ B) p ↔ spentByChain A p ∨ spentByChain B p := by
  constructor
  · rintro ⟨t, ht, hp⟩
    rcases List.mem_append.mp ht with h | h
    · exact Or.inl ⟨t, h, hp⟩
    · exact Or.inr ⟨t, h, hp⟩
  · rintro (⟨t, ht, hp⟩ | ⟨t, ht, hp⟩)
    · exact ⟨t, List.mem_append.mpr (Or.inl ht), hp⟩
    · exact ⟨t, List.mem_append.mpr (Or.inr ht), hp⟩

theorem spentByChain_singleton (t : Tx) (p : TxOutputPointer) :
    spentByChain [t] p ↔ p ∈ t.spent := by
  constructor
  · rintro ⟨t', ht', hp⟩
    rcases List.mem_singleton.mp ht' with rfl
    exact hp
  · intro hp
    exact ⟨t, List.mem_singleton.mpr rfl, hp⟩

theorem find?_hash_none {l : List Tx} {h : TxHash} (hh : ∀ t ∈ l, t.hash ≠ h) :
    l.find? (fun t => t.hash == h) = none := by
  rw [List.find?_eq_none]
  intro t ht
  simpa using hh t ht

/-- `StepWf` consequences: a transaction's spends never reference its own
hash. -/
theorem StepWf.spent_hash_ne {prior : List Tx} {t : Tx} (hwf : StepWf prior t) :
    ∀ p ∈ t.spent, p.hash ≠ t.hash := by
  intro p hp
  obtain ⟨-, t', ht', hh, -, -⟩ := hwf.spends_ok p hp
  rw [← hh]
  exact hwf.hash_fresh t' ht'

/-- A legal chain never spends a pointer bearing a hash that is fresh for
it. -/
theorem PriorWf.spent_hash_mem {prior : List Tx} (hp : PriorWf prior) :
    ∀ t' ∈ prior, ∀ p ∈ t'.spent, ∀ {h : TxHash},
      (∀ t'' ∈ prior, t''.hash ≠ h) → p.hash ≠ h := by
  intro t' ht' p hps h hfresh
  obtain ⟨t'', ht'', hh, -, -⟩ := hp.spends_backed t' ht' p hps
  rw [← hh]
  exact hfresh t'' ht''

theorem specUtxos_spent_none {cfg : UtxoConfig} {txs : List Tx} {q : TxOutputPointer}
    (hs : spentByChain txs q) : specUtxos cfg txs q = none := by
  rw [specUtxos, if_pos hs]

theorem specUtxos_fresh_none {cfg : UtxoConfig} {txs : List Tx} {q : TxOutputPointer}
    (hns : ¬ spentByChain txs q) (hf : ∀ t ∈ txs, t.hash ≠ q.hash) :
    specUtxos cfg txs q = none := by
  rw [specUtxos, if_neg hns, find?_hash_none hf]

/-- The closed form of the utxo specification under appending one legal
transaction. -/
theorem specUtxos_append (cfg : UtxoConfig) (prior : List Tx) (t : Tx)
    (hwf : StepWf prior t) (hp : PriorWf prior) (q : TxOutputPointer) :
    specUtxos cfg (prior ++ [t]) q =
      if q ∈ t.spent then none
      else if q.hash = t.hash then
        (if t.valid = true then Option.filter (keepOutput cfg) t.outputs[q.index]?
         else none)
      else specUtxos cfg prior q := by
  by_cases h1 : q ∈ t.spent
  · rw [if_pos h1]
    exact specUtxos_spent_none
      (spentByChain_append prior [t] q |>.mpr
        (Or.inr ((spentByChain_singleton t q).mpr h1)))
  · rw [if_neg h1]
    have hnt : ¬ spentByChain [t] q := fun hc => h1 ((spentByChain_singleton t q).mp hc)
    by_cases h2 : q.hash = t.hash
    · rw [if_pos h2]
      have hnp : ¬ spentByChain prior q := by
        rintro ⟨t', ht', hq⟩
        exact hp.spent_hash_mem t' ht' q hq
          (fun t'' ht'' => h2 ▸ hwf.hash_fresh t'' ht'') rfl
      have hns : ¬ spentByChain (prior ++ [t]) q := by
        rw [spentByChain_append]
        rintro (hc | hc)
        · exact hnp hc
        · exact hnt hc
      rw [specUtxos, if_neg hns, List.find?_append,
        find?_hash_none (fun t' ht' hc => hwf.hash_fresh t' ht' (hc.trans h2)),
        Option.none_or]
      simp only [List.find?, h2, beq_self_eq_true]
    · rw [if_neg h2]
      have hsp : spentByChain (prior ++ [t]) q ↔ spentByChain prior q := by
        rw [spentByChain_append]
        constructor
        · rintro (hc | hc)
          · exact hc
          · exact absurd hc hnt
        · exact Or.inl
      have hft : List.find? (fun t' => t'.hash == q.hash) [t] = none :=
        find?_hash_none (by simpa using fun hc => h2 hc.symm)
      by_cases hs : spentByChain prior q
      · rw [specUtxos_spent_none (hsp.mpr hs), specUtxos_spent_none hs]
      · rw [specUtxos, if_neg (fun hc => hs (hsp.mp hc)), List.find?_append, hft,
          Option.or_none, specUtxos, if_neg hs]

/-- Appending a transaction the indexer did not keep leaves the utxo
specification unchanged: everything it spends was already dead, and every
output it produces fails the filter. -/
theorem specUtxos_unkept (cfg : UtxoConfig) (prior : List Tx) (t : Tx)
    (hwf : StepWf prior t) (hp : PriorWf prior)
    (hk : keptTx cfg prior t = false) (q : TxOutputPointer) :
    specUtxos cfg (prior ++ [t]) q = specUtxos cfg prior q := by
  have hk' := Bool.or_eq_false_iff.mp hk
  have hk1 : ∀ p ∈ t.spent, specUtxos cfg prior p = none := by
    intro p hps
    have := List.any_eq_false.mp hk'.1 p hps
    exact Option.not_isSome_iff_eq_none.mp this
  have hk2 : ∀ out ∈ t.unspent, keepOutput cfg out = false := by
    intro out hout
    have := List.any_eq_false.mp hk'.2 out hout
    simpa using this
  rw [specUtxos_append cfg prior t hwf hp q]
  by_cases h1 : q ∈ t.spent
  · rw [if_pos h1, hk1 q h1]
  · rw [if_neg h1]
    by_cases h2 : q.hash = t.hash
    · rw [if_pos h2]
      have hnp : ¬ spentByChain prior q := by
        rintro ⟨t', ht', hq⟩
        exact hp.spent_hash_mem t' ht' q hq
          (fun t'' ht'' => h2 ▸ hwf.hash_fresh t'' ht'') rfl
      rw [specUtxos_fresh_none hnp (fun t' ht' hc => hwf.hash_fresh t' ht' (hc.trans h2)) ]
      cases hv : t.valid with
      | false => rfl
      | true =>
        cases houts : t.outputs[q.index]? with
        | none => rfl
        | some out =>
          have hmem : out ∈ t.unspent := by
            rw [Tx.unspent, hv]
            simpa using List.getElem?_mem houts
          simp [Option.filter, hk2 out hmem]
    · rw [if_neg h2]

theorem PriorWf.nil : PriorWf [] :=
  ⟨by simp, by simp, by simp, by simp⟩

theorem PriorWf.snoc {prior : List Tx} {t : Tx} (hp : PriorWf prior)
    (hwf : StepWf prior t) : PriorWf (prior ++ [t]) := by
  refine ⟨?_, ?_, ?_, ?_⟩
  · intro t' ht' p hps
    rcases List.mem_append.mp ht' with h | h
    · obtain ⟨t'', ht'', hrest⟩ := hp.spends_backed t' h p hps
      exact ⟨t'', List.mem_append.mpr (Or.inl ht''), hrest⟩
    · rcases List.mem_singleton.mp h with rfl
      obtain ⟨-, t'', ht'', hrest⟩ := hwf.spends_ok p hps
      exact ⟨t'', List.mem_append.mpr (Or.inl ht''), hrest⟩
  · rw [List.map_append]
    simp only [List.map_cons, List.map_nil]
    rw [List.nodup_append]
    refine ⟨hp.hashes_nodup, List.nodup_singleton _, ?_⟩
    intro h hh hh'
    rcases List.mem_singleton.mp hh' with rfl
    obtain ⟨t', ht', heq⟩ := List.mem_map.mp hh
    exact hwf.hash_fresh t' ht' heq
  · intro p t1 ht1 t2 ht2 hp1 hp2
    rcases List.mem_append.mp ht1 with h1 | h1 <;>
      rcases List.mem_append.mp ht2 with h2 | h2
    · exact hp.spent_once p t1 h1 t2 h2 hp1 hp2
    · rcases List.mem_singleton.mp h2 with rfl
      exact absurd ⟨t1, h1, hp1⟩ (hwf.spends_ok p hp2).1
    · rcases List.mem_singleton.mp h1 with rfl
      exact absurd ⟨t2, h2, hp2⟩ (hwf.spends_ok p hp1).1
    · rw [List.mem_singleton.mp h1, List.mem_singleton.mp h2]
  · intro t' ht'
    rcases List.mem_append.mp ht' with h | h
    · exact hp.spent_nodup t' h
    · rcases List.mem_singleton.mp h with rfl
      exact hwf.spent_nodup

theorem StepsWf_append (A : List Tx) :
    ∀ (pre B : List Tx), StepsWf pre (A ++ B) ↔ StepsWf pre A ∧ StepsWf (pre ++ A) B := by
  induction A with
  | nil =>
    intro pre B
    simp [StepsWf]
  | cons a A' ih =>
    intro pre B
    show StepWf pre a ∧ StepsWf (pre ++ [a]) (A' ++ B) ↔ _
    rw [ih (pre ++ [a]) B]
    constructor
    · rintro ⟨h1, h2, h3⟩
      exact ⟨⟨h1, h2⟩, by rwa [List.append_cons] ⟩
    · rintro ⟨⟨h1, h2⟩, h3⟩
      exact ⟨h1, h2, by rwa [List.append_cons] at h3⟩

theorem PriorWf.of_steps {l : List Tx} :
    ∀ {pre : List Tx}, PriorWf pre → StepsWf pre l → PriorWf (pre ++ l) := by
  induction l with
  | nil =>
    intro pre hp _
    simpa using hp
  | cons t l' ih =>
    intro pre hp hs
    have := ih (hp.snoc hs.1) hs.2
    rwa [← List.append_cons] at this

/-! ### C2: characterizing the `UtxoIndexer` primitives -/

theorem any_congr_mem {α : Type} {l : List α} {p q : α → Bool}
    (h : ∀ a ∈ l, p a = q a) : l.any p = l.any q := by
  induction l with
  | nil => rfl
  | cons a r ih =>
    simp only [List.any_cons, h a (List.mem_cons_self a r),
      ih (fun a' ha' => h a' (List.mem_cons_of_mem a ha'))]

theorem keepOutput_false_addr {cfg : UtxoConfig} {out : TxOutput}
    (h1 : Option.any (fun addresses => addresses.contains out.address) cfg.addresses
      = true) : keepOutput cfg out = false := by
  unfold keepOutput
  rw [h1]
  rfl

theorem keepOutput_false_asset {cfg : UtxoConfig} {out : TxOutput}
    (h2 : Option.any
        (fun assets =>
          !(assets.any (fun w => out.assets.any (fun a => AssetId.matches w a))))
        cfg.assets = true) : keepOutput cfg out = false := by
  unfold keepOutput
  rw [h2]
  simp

theorem keepOutput_true {cfg : UtxoConfig} {out : TxOutput}
    (h1 : Option.any (fun addresses => addresses.contains out.address) cfg.addresses
      = false)
    (h2 : Option.any
        (fun assets =>
          !(assets.any (fun w => out.assets.any (fun a => AssetId.matches w a))))
        cfg.assets = false) : keepOutput cfg out = true := by
  unfold keepOutput
  rw [h1, h2]
  rfl

theorem insert_output_fst (cfg : UtxoConfig) (u : UtxoState) (ptr : TxOutputPointer)
    (out : TxOutput) :
    (UtxoIndexer.insert_output cfg u ptr out).1 = keepOutput cfg out := by
  unfold UtxoIndexer.insert_output
  by_cases h1 : Option.any (fun addresses => addresses.contains out.address)
      cfg.addresses = true
  · rw [if_pos h1, keepOutput_false_addr h1]
  · have h1f : Option.any (fun addresses => addresses.contains out.address)
        cfg.addresses = false := by simpa using h1
    rw [if_neg h1]
    by_cases h2 : Option.any
        (fun assets =>
          !(assets.any (fun w => out.assets.any (fun a => AssetId.matches w a))))
        cfg.assets = true
    · rw [if_pos h2, keepOutput_false_asset h2]
    · have h2f : Option.any
          (fun assets =>
            !(assets.any (fun w => out.assets.any (fun a => AssetId.matches w a))))
          cfg.assets = false := by simpa using h2
      rw [if_neg h2, keepOutput_true h1f h2f]

theorem insert_output_utxos (cfg : UtxoConfig) (u : UtxoState) (ptr : TxOutputPointer)
    (out : TxOutput) (q : TxOutputPointer) :
    (UtxoIndexer.insert_output cfg u ptr out).2.utxos q =
      if keepOutput cfg out = true ∧ q = ptr then some out else u.utxos q := by
  unfold UtxoIndexer.insert_output
  by_cases h1 : Option.any (fun addresses => addresses.contains out.address)
      cfg.addresses = true
  · rw [if_pos h1, keepOutput_false_addr h1,
      if_neg (fun hc => Bool.false_ne_true hc.1)]
  · have h1f : Option.any (fun addresses => addresses.contains out.address)
        cfg.addresses = false := by simpa using h1
    rw [if_neg h1]
    by_cases h2 : Option.any
        (fun assets =>
          !(assets.any (fun w => out.assets.any (fun a => AssetId.matches w a))))
        cfg.assets = true
    · rw [if_pos h2, keepOutput_false_asset h2,
        if_neg (fun hc => Bool.false_ne_true hc.1)]
    · have h2f : Option.any
          (fun assets =>
            !(assets.any (fun w => out.assets.any (fun a => AssetId.matches w a))))
          cfg.assets = false := by simpa using h2
      rw [if_neg h2, keepOutput_true h1f h2f]
      show tput u.utxos ptr out q = if true = true ∧ q = ptr then some out else u.utxos q
      unfold tput
      by_cases hq : q = ptr
      · rw [if_pos hq, if_pos ⟨rfl, hq⟩]
      · rw [if_neg hq, if_neg (fun hc => hq hc.2)]

theorem consume_input_fst (u : UtxoState) (input : TxOutputPointer) :
    (UtxoIndexer.consume_input u input).1 = (u.utxos input).isSome := by
  unfold UtxoIndexer.consume_input
  cases h : u.utxos input <;> simp [h]

theorem consume_input_utxos (u : UtxoState) (input : TxOutputPointer)
    (q : TxOutputPointer) :
    (UtxoIndexer.consume_input u input).2.utxos q
      = if q = input then none else u.utxos q := by
  unfold UtxoIndexer.consume_input
  cases h : u.utxos input with
  | none =>
    by_cases hq : q = input
    · rw [if_pos hq]
      simpa [hq] using h
    · rw [if_neg hq]
  | some v =>
    simp only [tdel]

theorem consume_fold :
    ∀ (l : List TxOutputPointer), l.Nodup → ∀ (b0 : Bool) (u : UtxoState),
      (l.foldl (fun (acc : Bool × UtxoState) input =>
          let r := UtxoIndexer.consume_input acc.2 input
          (acc.1 || r.1, r.2)) (b0, u)).1
        = (b0 || l.any (fun p => (u.utxos p).isSome)) ∧
      ∀ q, (l.foldl (fun (acc : Bool × UtxoState) input =>
          let r := UtxoIndexer.consume_input acc.2 input
          (acc.1 || r.1, r.2)) (b0, u)).2.utxos q
        = if q ∈ l then none else u.utxos q := by
  intro l
  induction l with
  | nil =>
    intro _ b0 u
    exact ⟨by simp, fun q => by simp⟩
  | cons p r ih =>
    intro hnd b0 u
    have hpr : p ∉ r := (List.nodup_cons.mp hnd).1
    obtain ⟨ihb, ihv⟩ := ih (List.nodup_cons.mp hnd).2
        (b0 || (UtxoIndexer.consume_input u p).1) (UtxoIndexer.consume_input u p).2
    constructor
    · rw [List.foldl_cons, ihb, consume_input_fst]
      have hcong : r.any (fun x => ((UtxoIndexer.consume_input u p).2.utxos x).isSome)
          = r.any (fun x => (u.utxos x).isSome) := by
        refine any_congr_mem (fun x hx => ?_)
        have hxp : ¬ x = p := fun hc => hpr (hc ▸ hx)
        have hval : (UtxoIndexer.consume_input u p).2.utxos x = u.utxos x := by
          rw [consume_input_utxos]
          exact if_neg hxp
        rw [hval]
      rw [hcong, List.any_cons, Bool.or_assoc]
    · intro q
      rw [List.foldl_cons, ihv q]
      by_cases hq : q ∈ r
      · rw [if_pos hq, if_pos (List.mem_cons_of_mem p hq)]
      · rw [if_neg hq, consume_input_utxos]
        by_cases hqp : q = p
        · rw [if_pos hqp, if_pos (List.mem_cons.mpr (Or.inl hqp))]
        · rw [if_neg hqp, if_neg (by simp [hqp, hq])]

theorem insert_fold_enumFrom (cfg : UtxoConfig) (hsh : TxHash) :
    ∀ (outs : List TxOutput) (n : Nat) (b0 : Bool) (u : UtxoState),
      ((List.enumFrom n outs).foldl (fun (acc : Bool × UtxoState) io =>
          let r := UtxoIndexer.insert_output cfg acc.2 { hash := hsh, index := io.1 } io.2
          (acc.1 || r.1, r.2)) (b0, u)).1
        = (b0 || outs.any (keepOutput cfg)) ∧
      ∀ q : TxOutputPointer,
        ((List.enumFrom n outs).foldl (fun (acc : Bool × UtxoState) io =>
          let r := UtxoIndexer.insert_output cfg acc.2 { hash := hsh, index := io.1 } io.2
          (acc.1 || r.1, r.2)) (b0, u)).2.utxos q
        = if q.hash = hsh ∧ n ≤ q.index then
            (match outs[q.index - n]? with
             | some out => if keepOutput cfg out then some out else u.utxos q
             | none => u.utxos q)
          else u.utxos q := by
  intro outs
  induction outs with
  | nil =>
    intro n b0 u
    refine ⟨by simp, fun q => ?_⟩
    by_cases h : q.hash = hsh ∧ n ≤ q.index
    · rw [if_pos h]
      simp
    · rw [if_neg h]
      simp
  | cons out rest ih =>
    intro n b0 u
    rw [List.enumFrom_cons, List.foldl_cons]
    obtain ⟨ihb, ihv⟩ := ih (n + 1)
        (b0 || (UtxoIndexer.insert_output cfg u { hash := hsh, index := n } out).1)
        (UtxoIndexer.insert_output cfg u { hash := hsh, index := n } out).2
    constructor
    · rw [ihb, insert_output_fst, List.any_cons, Bool.or_assoc]
    · intro q
      rw [ihv q]
      by_cases hh : q.hash = hsh
      · by_cases hlt : n + 1 ≤ q.index
        · rw [if_pos ⟨hh, hlt⟩, if_pos ⟨hh, Nat.le_of_succ_le hlt⟩]
          have hget : (out :: rest)[q.index - n]? = rest[q.index - (n + 1)]? := by
            have harith : q.index - n = (q.index - (n + 1)) + 1 := by omega
            rw [harith]
            simp
          have hne : (UtxoIndexer.insert_output cfg u
              { hash := hsh, index := n } out).2.utxos q = u.utxos q := by
            rw [insert_output_utxos]
            refine if_neg (fun hc => ?_)
            have : q.index = n := by rw [hc.2]
            omega
          rw [hget, hne]
        · rw [if_neg (fun hc => hlt hc.2)]
          by_cases heq : q.index = n
          · rw [if_pos ⟨hh, Nat.le_of_eq heq.symm⟩]
            have hget : (out :: rest)[q.index - n]? = some out := by
              rw [heq]
              simp
            simp only [hget]
            rw [insert_output_utxos]
            have hq : q = { hash := hsh, index := n } := by
              cases q
              simp_all
            by_cases hk : keepOutput cfg out = true
            · rw [if_pos ⟨hk, hq⟩, if_pos hk]
            · rw [if_neg (fun hc => hk hc.1), if_neg hk]
          · rw [if_neg (fun hc => by omega)]
            rw [insert_output_utxos]
            refine if_neg (fun hc => ?_)
            have : q.index = n := by rw [hc.2]
            exact heq this
      · rw [if_neg (fun hc => hh hc.1), if_neg (fun hc => hh hc.1),
          insert_output_utxos]
        refine if_neg (fun hc => ?_)
        exact hh (by rw [hc.2])

theorem insert_tx_spec (cfg : UtxoConfig) (u : UtxoState) (t : Tx)
    (hnd : t.spent.Nodup) :
    (UtxoIndexer.insert_tx cfg u t).1
      = (t.spent.any (fun p => (u.utxos p).isSome) || t.unspent.any (keepOutput cfg)) ∧
    ∀ q, (UtxoIndexer.insert_tx cfg u t).2.utxos q
      = if q.hash = t.hash then
          (match t.unspent[q.index]? with
           | some out => if keepOutput cfg out then some out
               else (if q ∈ t.spent then none else u.utxos q)
           | none => if q ∈ t.spent then none else u.utxos q)
        else if q ∈ t.spent then none else u.utxos q := by
  have hpair : ∀ (z : Bool × UtxoState), z = (z.1, z.2) := fun _ => rfl
  unfold UtxoIndexer.insert_tx
  simp only [List.enum]
  rw [hpair (t.spent.foldl (fun (acc : Bool × UtxoState) input =>
      let r := UtxoIndexer.consume_input acc.2 input
      (acc.1 || r.1, r.2)) (false, u))]
  obtain ⟨hcb, hcv⟩ := consume_fold t.spent hnd false u
  obtain ⟨hib, hiv⟩ := insert_fold_enumFrom cfg t.hash t.unspent 0
      (t.spent.foldl (fun (acc : Bool × UtxoState) input =>
        let r := UtxoIndexer.consume_input acc.2 input
        (acc.1 || r.1, r.2)) (false, u)).1
      (t.spent.foldl (fun (acc : Bool × UtxoState) input =>
        let r := UtxoIndexer.consume_input acc.2 input
        (acc.1 || r.1, r.2)) (false, u)).2
  constructor
  · rw [hib, hcb, Bool.false_or]
  · intro q
    rw [hiv q, hcv q]
    simp only [Nat.sub_zero]
    by_cases hh : q.hash = t.hash
    · rw [if_pos ⟨hh, Nat.zero_le _⟩, if_pos hh]
    · rw [if_neg (fun hc => hh hc.1), if_neg hh]

/-- At a pointer carrying the hash of a transaction that is fresh for
`prior`, the prior utxo specification is empty. -/
theorem spec_prior_fresh {cfg : UtxoConfig} {prior : List Tx} {t : Tx}
    (hwf : StepWf prior t) (hp : PriorWf prior)
    {q : TxOutputPointer} (hh : q.hash = t.hash) : specUtxos cfg prior q = none := by
  have hnp : ¬ spentByChain prior q := by
    rintro ⟨t', ht', hq⟩
    exact hp.spent_hash_mem t' ht' q hq
      (fun t'' ht'' hc => hwf.hash_fresh t'' ht'' (hc.trans hh)) rfl
  exact specUtxos_fresh_none hnp
    (fun t' ht' hc => hwf.hash_fresh t' ht' (hc.trans hh))

/-- Forward simulation for one transaction: applied to a state that agrees
with the chain specification, `insert_tx` returns exactly the ghost kept
flag and a state agreeing with the extended chain's specification. -/
theorem insert_tx_forward (cfg : UtxoConfig) (prior : List Tx) (t : Tx)
    (u : UtxoState) (hwf : StepWf prior t) (hp : PriorWf prior)
    (hu : ∀ q, u.utxos q = specUtxos cfg prior q) :
    (UtxoIndexer.insert_tx cfg u t).1 = keptTx cfg prior t ∧
    ∀ q, (UtxoIndexer.insert_tx cfg u t).2.utxos q
      = specUtxos cfg (prior ++ [t]) q := by
  obtain ⟨hb, hv⟩ := insert_tx_spec cfg u t hwf.spent_nodup
  constructor
  · rw [hb, keptTx]
    congr 1
    exact any_congr_mem (fun p _ => by rw [hu p])
  · intro q
    rw [hv q, specUtxos_append cfg prior t hwf hp q]
    by_cases hh : q.hash = t.hash
    · rw [if_pos hh]
      have hqs : q ∉ t.spent := fun hc => hwf.spent_hash_ne q hc hh
      rw [if_neg hqs]
      have hfree : u.utxos q = none := by
        rw [hu q]
        exact spec_prior_fresh hwf hp hh
      cases hval : t.valid with
      | true =>
        have hunspent : t.unspent = t.outputs := by
          rw [Tx.unspent, hval, List.filter_true]
        rw [hunspent]
        cases hout : t.outputs[q.index]? with
        | none => simp [hqs, hfree, hh, hout, Option.filter]
        | some out =>
          by_cases hk : keepOutput cfg out = true
          · simp [hk, hh, hqs, hout, Option.filter]
          · simp [hk, hh, hqs, hfree, hout, Option.filter]
      | false =>
        have hunspent : t.unspent = [] := by
          rw [Tx.unspent, hval, List.filter_false]
        rw [hunspent]
        simp [hqs, hfree, hh]
    · rw [if_neg hh]
      by_cases hqs : q ∈ t.spent
      · rw [if_pos hqs, if_pos hqs]
      · rw [if_neg hqs, if_neg hqs, hu q]
        rw [if_neg hh]

/-! ### C2: characterizing `delete_tx` -/

theorem get_vt_output_ok {vt : TxHash → Option Tx} {q : TxOutputPointer}
    {out : TxOutput} :
    Db.get_volatile_tx_output vt q = Except.ok (some out) ↔ vtOutput vt q = some out := by
  unfold Db.get_volatile_tx_output vtOutput
  cases vt q.hash with
  | none => simp
  | some tx =>
    cases h : tx.outputs[q.index]? with
    | some o => simp [h]
    | none => simp [h]

theorem restore_fold (cfg : UtxoConfig) (vt : TxHash → Option Tx) :
    ∀ (l : List TxOutputPointer), l.Nodup → ∀ (u u' : UtxoState),
      l.foldlM (fun (u : UtxoState) input => do
          let r ← Db.get_volatile_tx_output vt input
          match r with
          | none => Except.error "missing tx output in volatile db"
          | some out => Except.ok (UtxoIndexer.insert_output cfg u input out).2) u
        = Except.ok u' →
      (∀ p ∈ l, ∃ out, vtOutput vt p = some out) ∧
      (∀ q, u'.utxos q =
        match (if q ∈ l then vtOutput vt q else none) with
        | some out => if keepOutput cfg out then some out else u.utxos q
        | none => u.utxos q) := by
  intro l
  induction l with
  | nil =>
    intro _ u u' hrun
    simp only [List.foldlM_nil] at hrun
    cases hrun
    exact ⟨by simp, fun q => by simp⟩
  | cons p r ih =>
    intro hnd u u' hrun
    have hpr : p ∉ r := (List.nodup_cons.mp hnd).1
    rw [List.foldlM_cons] at hrun
    cases hg : Db.get_volatile_tx_output vt p with
    | error e =>
      rw [hg] at hrun
      exact Except.noConfusion hrun
    | ok ropt =>
      cases ropt with
      | none =>
        rw [hg] at hrun
        exact Except.noConfusion hrun
      | some out =>
        rw [hg] at hrun
        obtain ⟨ih1, ih2⟩ := ih (List.nodup_cons.mp hnd).2
            (UtxoIndexer.insert_output cfg u p out).2 u' hrun
        have hvp : vtOutput vt p = some out := get_vt_output_ok.mp hg
        constructor
        · intro p' hp'
          rcases List.mem_cons.mp hp' with rfl | hmem
          · exact ⟨out, hvp⟩
          · exact ih1 p' hmem
        · intro q
          rw [ih2 q]
          by_cases hql : q ∈ r
          · rw [if_pos hql, if_pos (List.mem_cons_of_mem p hql)]
            have hqp : ¬ q = p := fun hc => hpr (hc ▸ hql)
            have hne : (UtxoIndexer.insert_output cfg u p out).2.utxos q
                = u.utxos q := by
              rw [insert_output_utxos]
              exact if_neg (fun hc => hqp hc.2)
            rw [hne]
          · rw [if_neg hql]
            by_cases hqp : q = p
            · subst hqp
              rw [if_pos (List.mem_cons_self q r), hvp]
              have hins : (UtxoIndexer.insert_output cfg u q out).2.utxos q
                  = if keepOutput cfg out = true ∧ q = q then some out
                    else u.utxos q := insert_output_utxos cfg u q out q
              by_cases hk : keepOutput cfg out = true
              · simp only [hins, hk, and_self, if_true, if_pos (And.intro hk rfl)]
              · simp only [hins, hk]
                simp [hk]
            · rw [if_neg (by simp [hqp, hql])]
              have hne : (UtxoIndexer.insert_output cfg u p out).2.utxos q
                  = u.utxos q := by
                rw [insert_output_utxos]
                exact if_neg (fun hc => hqp hc.2)
              rw [hne]

theorem remove_fold (hsh : TxHash) :
    ∀ (outs : List TxOutput) (n : Nat) (u : UtxoState) (q : TxOutputPointer),
      ((List.enumFrom n outs).foldl (fun (u : UtxoState) io =>
          (UtxoIndexer.consume_input u { hash := hsh, index := io.1 }).2) u).utxos q
        = if q.hash = hsh ∧ n ≤ q.index ∧ q.index < n + outs.length then none
          else u.utxos q := by
  intro outs
  induction outs with
  | nil =>
    intro n u q
    have hno : ¬ (q.hash = hsh ∧ n ≤ q.index ∧
        q.index < n + ([] : List TxOutput).length) := by
      rintro ⟨-, h1, h2⟩
      simp at h2
      omega
    rw [if_neg hno]
    simp
  | cons out rest ih =>
    intro n u q
    rw [List.enumFrom_cons, List.foldl_cons,
      ih (n + 1) (UtxoIndexer.consume_input u { hash := hsh, index := n }).2 q,
      consume_input_utxos]
    by_cases hh : q.hash = hsh
    · by_cases heq : q.index = n
      · have hq : q = { hash := hsh, index := n } := by
          cases q
          simp_all
        rw [if_neg (fun hc => by omega), if_pos hq,
          if_pos ⟨hh, by omega, by simp only [List.length_cons]; omega⟩]
      · by_cases hrange : n + 1 ≤ q.index ∧ q.index < (n + 1) + rest.length
        · rw [if_pos ⟨hh, hrange.1, hrange.2⟩,
            if_pos ⟨hh, by omega, by simp only [List.length_cons]; omega⟩]
        · have hcon : ¬ (q.hash = hsh ∧ n ≤ q.index ∧
              q.index < n + (out :: rest).length) := by
            rintro ⟨-, h1, h2⟩
            simp only [List.length_cons] at h2
            exact hrange ⟨by omega, by omega⟩
          rw [if_neg (fun hc => hrange ⟨hc.2.1, hc.2.2⟩),
            if_neg (fun hc => heq (by rw [hc])),
            if_neg hcon]
    · rw [if_neg (fun hc => hh hc.1),
        if_neg (fun hc => hh (by rw [hc])),
        if_neg (fun hc => hh hc.1)]

theorem find?_hash_unique {l : List Tx} {t' : Tx} (hnd : (l.map Tx.hash).Nodup)
    (ht' : t' ∈ l) {h : TxHash} (hh : t'.hash = h) :
    l.find? (fun t => t.hash == h) = some t' := by
  induction l with
  | nil => cases ht'
  | cons a r ih =>
    rw [List.map_cons, List.nodup_cons] at hnd
    rcases List.mem_cons.mp ht' with rfl | hmem
    · rw [List.find?_cons_of_pos _ (by simp [hh])]
    · have hane : ¬ a.hash = h := by
        intro hc
        apply hnd.1
        rw [hc, ← hh]
        exact List.mem_map_of_mem Tx.hash hmem
      rw [List.find?_cons_of_neg _ (by simp [hane])]
      exact ih hnd.2 hmem

/-- Backward simulation for one kept transaction: undoing it from a state
agreeing with the extended chain's specification lands on the shorter
chain's specification, provided every successful volatile lookup delivers
the true producing output. -/
theorem delete_tx_backward (cfg : UtxoConfig) (prior : List Tx) (t : Tx)
    (vt : TxHash → Option Tx) (u u' : UtxoState)
    (hwf : StepWf prior t) (hp : PriorWf prior)
    (hu : ∀ q, u.utxos q = specUtxos cfg (prior ++ [t]) q)
    (hvt : ∀ q ∈ t.spent, ∀ out, vtOutput vt q = some out →
      ∃ t', t' ∈ prior ∧ t'.hash = q.hash ∧ t'.valid = true ∧
        t'.outputs[q.index]? = some out)
    (hrun : UtxoIndexer.delete_tx cfg vt u t = Except.ok u') :
    ∀ q, u'.utxos q = specUtxos cfg prior q := by
  unfold UtxoIndexer.delete_tx at hrun
  cases hres : t.spent.foldlM (fun (u : UtxoState) input => do
      let r ← Db.get_volatile_tx_output vt input
      match r with
      | none => Except.error "missing tx output in volatile db"
      | some out => Except.ok (UtxoIndexer.insert_output cfg u input out).2) u with
  | error e =>
    rw [hres] at hrun
    exact Except.noConfusion hrun
  | ok u1 =>
    rw [hres] at hrun
    have hval : Except.ok ((t.unspent.enum).foldl (fun (u : UtxoState) io =>
        (UtxoIndexer.consume_input u { hash := t.hash, index := io.1 }).2) u1)
        = Except.ok u' := hrun
    have hu'eq : u' = (t.unspent.enum).foldl (fun (u : UtxoState) io =>
        (UtxoIndexer.consume_input u { hash := t.hash, index := io.1 }).2) u1 := by
      injection hval with hval'
      exact hval'.symm
    obtain ⟨hres1, hres2⟩ := restore_fold cfg vt t.spent hwf.spent_nodup u u1 hres
    intro q
    rw [hu'eq]
    have hrem := remove_fold t.hash t.unspent 0 u1 q
    rw [show (t.unspent.enum) = List.enumFrom 0 t.unspent from rfl, hrem]
    by_cases hh : q.hash = t.hash
    · rw [spec_prior_fresh hwf hp hh]
      have hqs : q ∉ t.spent := fun hc => hwf.spent_hash_ne q hc hh
      by_cases hzone : q.index < t.unspent.length
      · rw [if_pos ⟨hh, Nat.zero_le _, by omega⟩]
      · rw [if_neg (fun hc => hzone (by omega))]
        have h1 : u1.utxos q = u.utxos q := by
          rw [hres2 q, if_neg hqs]
        rw [h1, hu q, specUtxos_append cfg prior t hwf hp q, if_neg hqs, if_pos hh]
        cases hv : t.valid with
        | false => rfl
        | true =>
          have hunspent : t.unspent = t.outputs := by
            rw [Tx.unspent, hv, List.filter_true]
          have hout : t.outputs[q.index]? = none := by
            rw [List.getElem?_eq_none]
            rw [hunspent] at hzone
            omega
          rw [hout]
          rfl
    · rw [if_neg (fun hc => hh hc.1)]
      by_cases hqs : q ∈ t.spent
      · obtain ⟨out, hout⟩ := hres1 q hqs
        obtain ⟨t', ht', hthash, htvalid, htout⟩ := hvt q hqs out hout
        have hnsp : ¬ spentByChain prior q := (hwf.spends_ok q hqs).1
        have hspec : specUtxos cfg prior q
            = if keepOutput cfg out = true then some out else none := by
          rw [specUtxos, if_neg hnsp, find?_hash_unique hp.hashes_nodup ht' hthash]
          show (if t'.valid = true then
              Option.filter (keepOutput cfg) t'.outputs[q.index]? else none)
            = if keepOutput cfg out = true then some out else none
          rw [htvalid, if_pos rfl, htout]
          cases hk : keepOutput cfg out with
          | true => simp [Option.filter, hk]
          | false => simp [Option.filter, hk]
        rw [hres2 q, if_pos hqs, hout, hspec]
        by_cases hk : keepOutput cfg out = true
        · simp only [hk, if_true]
        · simp only [hk, if_false]
          rw [hu q]
          exact specUtxos_spent_none
            ((spentByChain_append prior [t] q).mpr
              (Or.inr ((spentByChain_singleton t q).mpr hqs)))
      · have h1 : u1.utxos q = u.utxos q := by
          rw [hres2 q, if_neg hqs]
        rw [h1, hu q, specUtxos_append cfg prior t hwf hp q, if_neg hqs, if_neg hh]

/-! ### The engine driven by a single `UtxoIndexer`

The registered indexer list is the singleton `[asIndexer idB cfg]`; the
`try_fold` / `for` loops over it collapse to the one indexer's hooks. -/

theorem foldInsertTx_single (idB : Bytes) (cfg : UtxoConfig)
    (vt : TxHash → Option Tx) (u : UtxoState) (tx : Tx) :
    Db.foldInsertTx [UtxoIndexer.asIndexer idB cfg] vt u tx
      = Except.ok (UtxoIndexer.insert_tx cfg u tx) := rfl

theorem foldInsertDatum_single (idB : Bytes) (cfg : UtxoConfig)
    (vt : TxHash → Option Tx) (u : UtxoState) (dh : DatumHash) (d : Datum) :
    Db.foldInsertDatum [UtxoIndexer.asIndexer idB cfg] vt u dh d
      = Except.ok (false, u) := rfl

theorem foldDeleteTx_single (idB : Bytes) (cfg : UtxoConfig)
    (vt : TxHash → Option Tx) (u : UtxoState) (tx : Tx) :
    Db.foldDeleteTx [UtxoIndexer.asIndexer idB cfg] vt u tx
      = UtxoIndexer.delete_tx cfg vt u tx := by
  show UtxoIndexer.delete_tx cfg vt u tx >>= (fun s => pure s) = _
  cases h : UtxoIndexer.delete_tx cfg vt u tx with
  | error e => rfl
  | ok v => rfl

theorem foldDeleteDatum_single (idB : Bytes) (cfg : UtxoConfig)
    (vt : TxHash → Option Tx) (u : UtxoState) (dh : DatumHash) :
    Db.foldDeleteDatum [UtxoIndexer.asIndexer idB cfg] vt u dh
      = Except.ok u := rfl

/-- The `UtxoIndexer` keeps no datums, so the datum loop of
`roll_forward_tx` is the identity on the accumulator. -/
theorem datum_fold_id (idB : Bytes) (cfg : UtxoConfig) :
    ∀ (ds : List (DatumHash × Datum)) (a : Db.FwdAcc UtxoState),
      ds.foldlM
        (fun (a : Db.FwdAcc UtxoState) dd => do
          let rd ← Db.foldInsertDatum [UtxoIndexer.asIndexer idB cfg]
            a.st.volatile_tx a.st.indexer dd.1 dd.2
          Except.ok
            { a with
              st := { a.st with indexer := rd.2 }
              datumHashes := if rd.1 then a.datumHashes ++ [dd.1] else a.datumHashes })
        a
      = Except.ok a := by
  intro ds
  induction ds with
  | nil => intro a; rfl
  | cons d rest ih =>
    intro a
    rw [List.foldlM_cons]
    exact ih a

/-- Closed form of one `roll_forward` loop iteration with the single
`UtxoIndexer`. -/
theorem roll_forward_tx_single (idB : Bytes) (cfg : UtxoConfig)
    (acc : Db.FwdAcc UtxoState) (txd : Tx × List (DatumHash × Datum)) :
    Db.roll_forward_tx [UtxoIndexer.asIndexer idB cfg] acc txd
      = Except.ok
        (if (UtxoIndexer.insert_tx cfg acc.st.indexer txd.1).1 then
          { st :=
              { acc.st with
                indexer := (UtxoIndexer.insert_tx cfg acc.st.indexer txd.1).2
                volatile_tx := tput acc.st.volatile_tx txd.1.hash txd.1 }
            txHashes := acc.txHashes ++ [txd.1.hash]
            datumHashes := acc.datumHashes }
        else
          { st :=
              { acc.st with
                indexer := (UtxoIndexer.insert_tx cfg acc.st.indexer txd.1).2 }
            txHashes := acc.txHashes
            datumHashes := acc.datumHashes }) := by
  have hmain : Db.roll_forward_tx [UtxoIndexer.asIndexer idB cfg] acc txd
      = txd.2.foldlM
        (fun (a : Db.FwdAcc UtxoState) dd => do
          let rd ← Db.foldInsertDatum [UtxoIndexer.asIndexer idB cfg]
            a.st.volatile_tx a.st.indexer dd.1 dd.2
          Except.ok
            { a with
              st := { a.st with indexer := rd.2 }
              datumHashes := if rd.1 then a.datumHashes ++ [dd.1] else a.datumHashes })
        (match
          (if (UtxoIndexer.insert_tx cfg acc.st.indexer txd.1).1 then
            ({ acc.st with
                indexer := (UtxoIndexer.insert_tx cfg acc.st.indexer txd.1).2
                volatile_tx := tput acc.st.volatile_tx txd.1.hash txd.1 },
              acc.txHashes ++ [txd.1.hash])
          else
            ({ acc.st with
                indexer := (UtxoIndexer.insert_tx cfg acc.st.indexer txd.1).2 },
              acc.txHashes)) with
         | (st2, txHashes) =>
           { st := st2, txHashes := txHashes, datumHashes := acc.datumHashes }) := rfl
  rw [hmain]
  cases hb : (UtxoIndexer.insert_tx cfg acc.st.indexer txd.1).1 with
  | true => exact datum_fold_id idB cfg txd.2 _
  | false => exact datum_fold_id idB cfg txd.2 _

/-! ### Chain-level ghost algebra -/

theorem chainTxs_append (C D : List Block) :
    chainTxs (C ++ D) = chainTxs C ++ chainTxs D := by
  induction C with
  | nil => rfl
  | cons b rest ih =>
    show blockTxs b ++ chainTxs (rest ++ D) = (blockTxs b ++ chainTxs rest) ++ chainTxs D
    rw [ih, List.append_assoc]

theorem ghostKept_append (cfg : UtxoConfig) (A : List Tx) :
    ∀ (prior B : List Tx),
      ghostKept cfg prior (A ++ B)
        = ghostKept cfg prior A ++ ghostKept cfg (prior ++ A) B := by
  induction A with
  | nil =>
    intro prior B
    simp [ghostKept]
  | cons t A' ih =>
    intro prior B
    show (if keptTx cfg prior t then [t.hash] else []) ++
        ghostKept cfg (prior ++ [t]) (A' ++ B)
      = ((if keptTx cfg prior t then [t.hash] else []) ++
          ghostKept cfg (prior ++ [t]) A') ++ ghostKept cfg (prior ++ t :: A') B
    rw [ih (prior ++ [t]) B]
    simp [List.append_assoc]

theorem canonVB_append (cfg : UtxoConfig) (A : List Block) :
    ∀ (pre : List Tx) (B : List Block) (h : BlockHash),
      canonVB cfg pre (A ++ B) h
        = (canonVB cfg pre A h).or (canonVB cfg (pre ++ chainTxs A) B h) := by
  induction A with
  | nil =>
    intro pre B h
    show canonVB cfg pre B h = Option.or none (canonVB cfg (pre ++ []) B h)
    rw [List.append_nil]
    rfl
  | cons b A' ih =>
    intro pre B h
    show (if h = b.hash then some _ else canonVB cfg (pre ++ blockTxs b) (A' ++ B) h)
      = Option.or (if h = b.hash then some _ else canonVB cfg (pre ++ blockTxs b) A' h) _
    by_cases hb : h = b.hash
    · rw [if_pos hb, if_pos hb]
      rfl
    · rw [if_neg hb, if_neg hb, ih (pre ++ blockTxs b) B h]
      show _ = Option.or _ (canonVB cfg (pre ++ chainTxs (b :: A')) B h)
      rw [show chainTxs (b :: A') = blockTxs b ++ chainTxs A' from rfl,
        ← List.append_assoc]

theorem canonVB_none_of_not_mem (cfg : UtxoConfig) {C : List Block} {h : BlockHash}
    (hmem : h ∉ C.map Block.hash) : ∀ pre, canonVB cfg pre C h = none := by
  induction C with
  | nil => intro pre; rfl
  | cons b rest ih =>
    intro pre
    rw [List.map_cons] at hmem
    show (if h = b.hash then _ else canonVB cfg (pre ++ blockTxs b) rest h) = none
    rw [if_neg (fun hc => hmem (by rw [hc]; exact List.mem_cons_self _ _)),
      ih (fun hc => hmem (List.mem_cons_of_mem _ hc)) (pre ++ blockTxs b)]

/-- A slot-sorted chain splits at slot `s` into its kept and dropped
parts. -/
theorem chain_split_filter (s : Nat) {C : List Block}
    (hp : List.Pairwise (fun b b' => b.slot < b'.slot) C) :
    C = C.filter (fun b => b.slot ≤ s) ++ C.filter (fun b => s + 1 ≤ b.slot) := by
  induction C with
  | nil => rfl
  | cons b rest ih =>
    rw [List.pairwise_cons] at hp
    by_cases hb : b.slot ≤ s
    · rw [List.filter_cons_of_pos (by simpa using hb),
        List.filter_cons_of_neg (by simp; omega), List.cons_append]
      exact congrArg (List.cons b) (ih hp.2)
    · rw [List.filter_cons_of_neg (by simpa using hb),
        List.filter_cons_of_pos (by simp; omega)]
      have h1 : rest.filter (fun b => b.slot ≤ s) = [] := by
        rw [List.filter_eq_nil_iff]
        intro a ha
        have := hp.1 a ha
        simp
        omega
      have h2 : rest.filter (fun b => s + 1 ≤ b.slot) = rest := by
        rw [List.filter_eq_self]
        intro a ha
        have := hp.1 a ha
        simp
        omega
      rw [h1, h2, List.nil_append]

theorem slotsOfChain_append (C : List Block) (b : Block) :
    slotsOfChain (C ++ [b]) = (b.slot, b.hash) :: slotsOfChain C := by
  rw [slotsOfChain, List.map_append, List.reverse_append]
  rfl

theorem slotsPut_fresh {l : List (Nat × BlockHash)} {s : Nat} (h : BlockHash)
    (hl : ∀ e ∈ l, e.1 < s) : slotsPut l s h = (s, h) :: l := by
  cases l with
  | nil => rfl
  | cons e rest =>
    show (if e.1 < s then _ else _) = _
    rw [if_pos (hl e (List.mem_cons_self _ _))]

theorem slotsDelete_fresh {l : List (Nat × BlockHash)} {s : Nat} (h : BlockHash)
    (hl : ∀ e ∈ l, e.1 ≠ s) : slotsDelete ((s, h) :: l) s = l := by
  rw [slotsDelete, List.filter_cons_of_neg (by simp)]
  rw [List.filter_eq_self]
  intro a ha
  simpa using hl a ha

/-- Forward simulation of `roll_forward`'s per-transaction loop with the
single `UtxoIndexer`: the indexer state tracks the extended chain's utxo
specification, `tx_hashes` collects exactly the ghost kept hashes, and the
only canonical table touched is `volatile_tx`, which gains just the kept
transactions of the block. -/
theorem fwd_txs_fold (idB : Bytes) (cfg : UtxoConfig) :
    ∀ (txds : List (Tx × List (DatumHash × Datum))) (prior : List Tx)
      (acc out : Db.FwdAcc UtxoState),
      StepsWf prior (txds.map Prod.fst) →
      PriorWf prior →
      (∀ q, acc.st.indexer.utxos q = specUtxos cfg prior q) →
      txds.foldlM (Db.roll_forward_tx [UtxoIndexer.asIndexer idB cfg]) acc
        = Except.ok out →
      (∀ q, out.st.indexer.utxos q
        = specUtxos cfg (prior ++ txds.map Prod.fst) q) ∧
      out.txHashes = acc.txHashes ++ ghostKept cfg prior (txds.map Prod.fst) ∧
      out.datumHashes = acc.datumHashes ∧
      out.st.slots = acc.st.slots ∧
      out.st.volatile_block = acc.st.volatile_block ∧
      out.st.indexer_ids = acc.st.indexer_ids ∧
      ∀ h, out.st.volatile_tx h = acc.st.volatile_tx h ∨
        ∃ t ∈ txds.map Prod.fst, t.hash = h ∧ out.st.volatile_tx h = some t := by
  intro txds
  induction txds with
  | nil =>
    intro prior acc out _ _ hu hrun
    rw [List.foldlM_nil] at hrun
    obtain rfl : acc = out := by
      injection hrun with h
    refine ⟨?_, by simp [ghostKept], rfl, rfl, rfl, rfl, fun h => Or.inl rfl⟩
    intro q
    rw [hu q]
    simp
  | cons td rest ih =>
    intro prior acc out hwf hp hu hrun
    simp only [List.map_cons] at hwf ⊢
    obtain ⟨hw1, hw2⟩ := hwf
    rw [List.foldlM_cons, roll_forward_tx_single] at hrun
    obtain ⟨hflag, hutx⟩ :=
      insert_tx_forward cfg prior td.1 acc.st.indexer hw1 hp hu
    have hp' : PriorWf (prior ++ [td.1]) := PriorWf.snoc hp hw1
    cases hk : keptTx cfg prior td.1 with
    | true =>
      rw [hflag, hk, if_pos rfl] at hrun
      have hrun' : rest.foldlM (Db.roll_forward_tx [UtxoIndexer.asIndexer idB cfg])
          { st :=
              { acc.st with
                indexer := (UtxoIndexer.insert_tx cfg acc.st.indexer td.1).2
                volatile_tx := tput acc.st.volatile_tx td.1.hash td.1 }
            txHashes := acc.txHashes ++ [td.1.hash]
            datumHashes := acc.datumHashes } = Except.ok out := hrun
      obtain ⟨c1, c2, c3, c4, c5, c6, c7⟩ :=
        ih (prior ++ [td.1]) _ out hw2 hp' hutx hrun'
      refine ⟨?_, ?_, c3, c4, c5, c6, ?_⟩
      · intro q
        have := c1 q
        rwa [List.append_assoc, List.singleton_append] at this
      · rw [c2]
        show (acc.txHashes ++ [td.1.hash]) ++ _
          = acc.txHashes ++
            ((if keptTx cfg prior td.1 then [td.1.hash] else []) ++ _)
        rw [hk, if_pos rfl, List.append_assoc]
      · intro h
        rcases c7 h with hl | ⟨t, ht, hth, htv⟩
        · have hl' : out.st.volatile_tx h
              = if h = td.1.hash then some td.1 else acc.st.volatile_tx h := hl
          by_cases hh : h = td.1.hash
          · refine Or.inr ⟨td.1, List.mem_cons_self _ _, hh.symm, ?_⟩
            rw [hl', if_pos hh]
          · exact Or.inl (by rw [hl', if_neg hh])
        · exact Or.inr ⟨t, List.mem_cons_of_mem _ ht, hth, htv⟩
    | false =>
      rw [hflag, hk, if_neg Bool.false_ne_true] at hrun
      have hrun' : rest.foldlM (Db.roll_forward_tx [UtxoIndexer.asIndexer idB cfg])
          { st :=
              { acc.st with
                indexer := (UtxoIndexer.insert_tx cfg acc.st.indexer td.1).2 }
            txHashes := acc.txHashes
            datumHashes := acc.datumHashes } = Except.ok out := hrun
      obtain ⟨c1, c2, c3, c4, c5, c6, c7⟩ :=
        ih (prior ++ [td.1]) _ out hw2 hp' hutx hrun'
      refine ⟨?_, ?_, c3, c4, c5, c6, ?_⟩
      · intro q
        have := c1 q
        rwa [List.append_assoc, List.singleton_append] at this
      · rw [c2]
        show acc.txHashes ++ _
          = acc.txHashes ++
            ((if keptTx cfg prior td.1 then [td.1.hash] else []) ++ _)
        rw [hk, if_neg Bool.false_ne_true, List.nil_append]
      · intro h
        rcases c7 h with hl | ⟨t, ht, hth, htv⟩
        · exact Or.inl hl
        · exact Or.inr ⟨t, List.mem_cons_of_mem _ ht, hth, htv⟩

theorem option_or_none {α : Type} (x : Option α) : Option.or x none = x := by
  cases x <;> rfl

/-- `assert_indexer_ids` with the single live id `idB` succeeds on a first
run or on a matching store, and leaves the stored list `[idB]`. -/
theorem assert_ids_single {st : DbState UtxoState} (idB : Bytes)
    (hids : st.indexer_ids = [] ∨ st.indexer_ids = [idB]) :
    Db.assert_indexer_ids st [idB]
      = Except.ok { st with indexer_ids := [idB] } := by
  unfold Db.assert_indexer_ids
  rcases hids with h | h
  · rw [if_pos (by rw [h]; rfl)]
    rfl
  · rw [if_neg (by rw [h]; simp), if_pos h, ← h]

/-- Forward preservation: rolling one legal block forward with the single
`UtxoIndexer` preserves the simulation invariant for the extended chain. -/
theorem roll_forward_inv (idB : Bytes) (cfg : UtxoConfig) (allTxs : List Tx)
    (C : List Block) (st st' : DbState UtxoState) (b : Block)
    (hinv : UtxoInv idB cfg allTxs C st)
    (hop : OpWf C (Op.forward b))
    (hsub : ∀ t ∈ blockTxs b, t ∈ allTxs)
    (hrun : Db.roll_forward [UtxoIndexer.asIndexer idB cfg] st b = Except.ok st') :
    UtxoInv idB cfg allTxs (C ++ [b]) st' := by
  obtain ⟨hslot_lt, hhash_nin, hsteps⟩ := hop
  unfold Db.roll_forward at hrun
  rw [show (List.map (fun i => i.id) [UtxoIndexer.asIndexer idB cfg]) = [idB]
      from rfl,
    assert_ids_single idB hinv.ids_ok] at hrun
  have hfin : (b.txs.foldlM (Db.roll_forward_tx [UtxoIndexer.asIndexer idB cfg])
        { st := { st with indexer_ids := [idB] }, txHashes := [], datumHashes := [] }
      >>= fun acc =>
        Except.ok
          { slots := slotsPut acc.st.slots b.slot b.hash
            volatile_tx := acc.st.volatile_tx
            volatile_block := tput acc.st.volatile_block b.hash
              { hash := b.hash, number := b.number, slot := b.slot
                txs := acc.txHashes, datums := acc.datumHashes }
            indexer_ids := acc.st.indexer_ids
            indexer := acc.st.indexer }) = Except.ok st' := hrun
  cases hacc : b.txs.foldlM (Db.roll_forward_tx [UtxoIndexer.asIndexer idB cfg])
      { st := { st with indexer_ids := [idB] }, txHashes := [], datumHashes := [] } with
  | error e =>
    rw [hacc] at hfin
    exact Except.noConfusion hfin
  | ok acc =>
    rw [hacc] at hfin
    have hst' : st' =
        { slots := slotsPut acc.st.slots b.slot b.hash
          volatile_tx := acc.st.volatile_tx
          volatile_block := tput acc.st.volatile_block b.hash
            { hash := b.hash, number := b.number, slot := b.slot
              txs := acc.txHashes, datums := acc.datumHashes }
          indexer_ids := acc.st.indexer_ids
          indexer := acc.st.indexer } := by
      injection hfin with h
      exact h.symm
    obtain ⟨c1, c2, c3, c4, c5, c6, c7⟩ :=
      fwd_txs_fold idB cfg b.txs (chainTxs C) _ acc hsteps hinv.pwf
        (fun q => hinv.utxos_eq q) hacc
    have hchb : chainTxs (C ++ [b]) = chainTxs C ++ blockTxs b := by
      rw [chainTxs_append]
      show chainTxs C ++ (blockTxs b ++ []) = _
      rw [List.append_nil]
    have hwf' : StepsWf [] (chainTxs (C ++ [b])) := by
      rw [hchb]
      refine (StepsWf_append (chainTxs C) [] (blockTxs b)).mpr ⟨hinv.wf, ?_⟩
      rw [List.nil_append]
      exact hsteps
    have hpairC : List.Pairwise (fun b b' : Block => b.slot < b'.slot) C :=
      (@List.chain'_iff_pairwise Block (fun b b' => b.slot < b'.slot)
        ⟨fun a b c hab hbc => Nat.lt_trans hab hbc⟩ C).mp hinv.slots_mono
    subst hst'
    refine ⟨?_, ?_, hwf', ?_, ?_, ?_, ?_, ?_, ?_, ?_⟩
    · show slotsPut acc.st.slots b.slot b.hash = _
      rw [c4]
      show slotsPut st.slots b.slot b.hash = _
      rw [hinv.slots_eq, slotsOfChain_append]
      refine slotsPut_fresh b.hash ?_
      intro e he
      rw [slotsOfChain, List.mem_reverse] at he
      obtain ⟨b', hb', rfl⟩ := List.mem_map.mp he
      exact hslot_lt b' hb'
    · refine (@List.chain'_iff_pairwise Block (fun b b' => b.slot < b'.slot)
        ⟨fun a b c hab hbc => Nat.lt_trans hab hbc⟩ (C ++ [b])).mpr ?_
      rw [List.pairwise_append]
      refine ⟨hpairC, List.pairwise_singleton _ _, ?_⟩
      intro x hx y hy
      rw [List.mem_singleton] at hy
      subst hy
      exact hslot_lt x hx
    · exact PriorWf.of_steps PriorWf.nil hwf'
    · intro t ht
      rw [hchb] at ht
      rcases List.mem_append.mp ht with h | h
      · exact hinv.sub t h
      · exact hsub t h
    · rw [List.map_append]
      refine List.Nodup.append hinv.bhashes_nodup (List.nodup_singleton _) ?_
      intro a ha hb'
      rw [List.map_singleton, List.mem_singleton] at hb'
      subst hb'
      exact hhash_nin ha
    · intro h
      show tput acc.st.volatile_block b.hash _ h = _
      rw [c5]
      show tput st.volatile_block b.hash _ h = _
      rw [canonVB_append cfg C [] [b] h, List.nil_append, tput]
      by_cases hh : h = b.hash
      · rw [if_pos hh, canonVB_none_of_not_mem cfg (hh ▸ hhash_nin) []]
        show _ = Option.or none (if h = b.hash then _ else _)
        rw [Option.none_or, if_pos hh, c2, c3, List.nil_append]
        rfl
      · rw [if_neg hh, hinv.vb_eq h]
        show _ = Option.or _ (if h = b.hash then _ else canonVB cfg _ [] h)
        rw [if_neg hh]
        show _ = Option.or (canonVB cfg [] C h) none
        rw [option_or_none]
    · intro h t hvt
      rcases c7 h with hl | ⟨t', ht', hth, htv⟩
      · have hl' : acc.st.volatile_tx h = st.volatile_tx h := hl
        rw [hl'] at hvt
        exact hinv.vt_truth h t hvt
      · rw [htv] at hvt
        injection hvt with h'
        subst h'
        exact ⟨hsub _ ht', hth⟩
    · intro q
      show acc.st.indexer.utxos q = _
      rw [c1 q, hchb]
      rfl
    · exact Or.inr c6

/-- Backward simulation of one block's transaction-undo loop: folding the
per-block receipt's kept hashes (newest first) through `delete_tx` returns
the indexer to the shorter chain's utxo specification and touches no
canonical table. -/
theorem undo_txs (idB : Bytes) (cfg : UtxoConfig) (allTxs : List Tx)
    (snap : DbState UtxoState) (hinj : HashInj allTxs)
    (hvt_truth : ∀ h t, snap.volatile_tx h = some t → t ∈ allTxs ∧ t.hash = h) :
    ∀ (L : List Tx), ∀ (prior : List Tx), StepsWf prior L → PriorWf prior →
      (∀ t ∈ prior, t ∈ allTxs) → (∀ t ∈ L, t ∈ allTxs) →
      ∀ (st st' : DbState UtxoState),
      st.volatile_tx = snap.volatile_tx →
      (∀ q, st.indexer.utxos q = specUtxos cfg (prior ++ L) q) →
      (ghostKept cfg prior L).reverse.foldlM
        (fun (st : DbState UtxoState) th =>
          match snap.volatile_tx th with
          | none => Except.error "tx not found while rolling back, the db could be corrupt"
          | some tx => do
            let ind ← Db.foldDeleteTx [UtxoIndexer.asIndexer idB cfg]
              st.volatile_tx st.indexer tx
            Except.ok { st with indexer := ind })
        st = Except.ok st' →
      st'.volatile_tx = st.volatile_tx ∧
      st'.slots = st.slots ∧
      st'.volatile_block = st.volatile_block ∧
      st'.indexer_ids = st.indexer_ids ∧
      ∀ q, st'.indexer.utxos q = specUtxos cfg prior q := by
  intro L
  induction L using List.reverseRecOn with
  | nil =>
    intro prior _ _ _ _ st st' _ hu hrun
    rw [show ghostKept cfg prior [] = [] from rfl, List.reverse_nil,
      List.foldlM_nil] at hrun
    obtain rfl : st = st' := by
      injection hrun with h
    refine ⟨rfl, rfl, rfl, rfl, fun q => ?_⟩
    rw [hu q]
    simp
  | append_singleton L' t ih =>
    intro prior hsw hp hPsub hLsub st st' hvt_eq hu hrun
    obtain ⟨hswL, hswT⟩ := (StepsWf_append L' prior [t]).mp hsw
    have hwfT : StepWf (prior ++ L') t := hswT.1
    have hp' : PriorWf (prior ++ L') := PriorWf.of_steps hp hswL
    have hLsub' : ∀ t' ∈ L', t' ∈ allTxs := fun t' ht' =>
      hLsub t' (List.mem_append.mpr (Or.inl ht'))
    have htA : t ∈ allTxs := hLsub t (List.mem_append.mpr (Or.inr (List.mem_singleton.mpr rfl)))
    rw [ghostKept_append cfg L' prior [t]] at hrun
    cases hk : keptTx cfg (prior ++ L') t with
    | true =>
      have hg2 : ghostKept cfg (prior ++ L') [t] = [t.hash] := by
        simp [ghostKept, hk]
      rw [hg2, List.reverse_append, List.reverse_singleton, List.singleton_append,
        List.foldlM_cons] at hrun
      cases hl : snap.volatile_tx t.hash with
      | none =>
        rw [hl] at hrun
        exact Except.noConfusion hrun
      | some tx =>
        rw [hl] at hrun
        obtain ⟨htxA, htxh⟩ := hvt_truth t.hash tx hl
        obtain rfl : t = tx := (hinj tx htxA t htA htxh).symm
        have hrun1 : ((Db.foldDeleteTx [UtxoIndexer.asIndexer idB cfg]
              st.volatile_tx st.indexer t
            >>= fun ind => Except.ok { st with indexer := ind })
          >>= fun st1 => (ghostKept cfg prior L').reverse.foldlM
            (fun (st : DbState UtxoState) th =>
              match snap.volatile_tx th with
              | none => Except.error "tx not found while rolling back, the db could be corrupt"
              | some tx => do
                let ind ← Db.foldDeleteTx [UtxoIndexer.asIndexer idB cfg]
                  st.volatile_tx st.indexer tx
                Except.ok { st with indexer := ind })
            st1) = Except.ok st' := hrun
        rw [foldDeleteTx_single] at hrun1
        cases hdel : UtxoIndexer.delete_tx cfg st.volatile_tx st.indexer t with
        | error e =>
          rw [hdel] at hrun1
          exact Except.noConfusion hrun1
        | ok u1 =>
          rw [hdel] at hrun1
          have hrun2 : (ghostKept cfg prior L').reverse.foldlM
              (fun (st : DbState UtxoState) th =>
                match snap.volatile_tx th with
                | none => Except.error "tx not found while rolling back, the db could be corrupt"
                | some tx => do
                  let ind ← Db.foldDeleteTx [UtxoIndexer.asIndexer idB cfg]
                    st.volatile_tx st.indexer tx
                  Except.ok { st with indexer := ind })
              { st with indexer := u1 } = Except.ok st' := hrun1
          have hu' : ∀ q, st.indexer.utxos q
              = specUtxos cfg ((prior ++ L') ++ [t]) q := by
            intro q
            rw [hu q, List.append_assoc]
          have hvtprem : ∀ q ∈ t.spent, ∀ out,
              vtOutput st.volatile_tx q = some out →
              ∃ t', t' ∈ prior ++ L' ∧ t'.hash = q.hash ∧ t'.valid = true ∧
                t'.outputs[q.index]? = some out := by
            intro q hq out hout
            rw [vtOutput] at hout
            cases hvq : st.volatile_tx q.hash with
            | none =>
              rw [hvq] at hout
              exact Option.noConfusion hout
            | some tx2 =>
              rw [hvq] at hout
              rw [hvt_eq] at hvq
              obtain ⟨htx2A, htx2h⟩ := hvt_truth q.hash tx2 hvq
              obtain ⟨-, t', ht', hh', hval, -⟩ := hwfT.spends_ok q hq
              have ht'A : t' ∈ allTxs := by
                rcases List.mem_append.mp ht' with h | h
                · exact hPsub t' h
                · exact hLsub' t' h
              obtain rfl : t' = tx2 := (hinj tx2 htx2A t' ht'A (htx2h.trans hh'.symm)).symm
              exact ⟨t', ht', hh', hval, hout⟩
          have hback := delete_tx_backward cfg (prior ++ L') t st.volatile_tx
            st.indexer u1 hwfT hp' hu' hvtprem hdel
          obtain ⟨d1, d2, d3, d4, d5⟩ := ih prior hswL hp hPsub hLsub'
            { st with indexer := u1 } st' hvt_eq hback hrun2
          exact ⟨d1, d2, d3, d4, d5⟩
    | false =>
      have hg2 : ghostKept cfg (prior ++ L') [t] = [] := by
        simp [ghostKept, hk]
      rw [hg2, List.append_nil] at hrun
      have hu' : ∀ q, st.indexer.utxos q = specUtxos cfg (prior ++ L') q := by
        intro q
        rw [hu q, ← List.append_assoc]
        exact specUtxos_unkept cfg (prior ++ L') t hwfT hp' hk q
      exact ih prior hswL hp hPsub hLsub' st st' hvt_eq hu' hrun

theorem chainTxs_singleton (b : Block) : chainTxs [b] = blockTxs b := by
  show blockTxs b ++ [] = blockTxs b
  rw [List.append_nil]

/-- Backward simulation of `roll_backward`'s per-slot loop: undoing the
suffix `S` of the reflected chain (newest block first, one
`roll_backward_slot` per entry) lands on the state reflecting the prefix
`P`.  `snap` is the read snapshot the loop's iterator was opened on; `E` is
the part of the snapshot chain `C` already undone. -/
theorem undo_blocks (idB : Bytes) (cfg : UtxoConfig) (allTxs : List Tx)
    (snap : DbState UtxoState) (C : List Block) (hinj : HashInj allTxs)
    (hvt_truth : ∀ h t, snap.volatile_tx h = some t → t ∈ allTxs ∧ t.hash = h)
    (hvb_snap : ∀ h, snap.volatile_block h = canonVB cfg [] C h)
    (hwfC : StepsWf [] (chainTxs C))
    (hsubC : ∀ t ∈ chainTxs C, t ∈ allTxs)
    (hbh_nodup : (C.map Block.hash).Nodup)
    (hpair : List.Pairwise (fun b b' : Block => b.slot < b'.slot) C) :
    ∀ (S : List Block), ∀ (P E : List Block), C = P ++ S ++ E →
      ∀ (st st' : DbState UtxoState),
      st.volatile_tx = snap.volatile_tx →
      st.slots = slotsOfChain (P ++ S) →
      (∀ h, st.volatile_block h = canonVB cfg [] (P ++ S) h) →
      (∀ q, st.indexer.utxos q = specUtxos cfg (chainTxs (P ++ S)) q) →
      ((S.map (fun b => (b.slot, b.hash))).reverse).foldlM
        (Db.roll_backward_slot [UtxoIndexer.asIndexer idB cfg] snap) st
        = Except.ok st' →
      st'.volatile_tx = st.volatile_tx ∧
      st'.indexer_ids = st.indexer_ids ∧
      st'.slots = slotsOfChain P ∧
      (∀ h, st'.volatile_block h = canonVB cfg [] P h) ∧
      (∀ q, st'.indexer.utxos q = specUtxos cfg (chainTxs P) q) := by
  intro S
  induction S using List.reverseRecOn with
  | nil =>
    intro P E hCE st st' hvt heq hvb hut hrun
    rw [List.map_nil, List.reverse_nil, List.foldlM_nil] at hrun
    obtain rfl : st = st' := by
      injection hrun with h
    rw [List.append_nil] at heq hut
    refine ⟨rfl, rfl, heq, ?_, hut⟩
    intro h
    have := hvb h
    rwa [List.append_nil] at this
  | append_singleton S' d ih =>
    intro P E hCE st st' hvt heq hvb hut hrun
    have hQd : P ++ (S' ++ [d]) = (P ++ S') ++ [d] := (List.append_assoc P S' [d]).symm
    have hCeq : C = ((P ++ S') ++ [d]) ++ E := by
      rw [hCE, hQd]
    have hCtx : chainTxs C
        = chainTxs (P ++ S') ++ (blockTxs d ++ chainTxs E) := by
      rw [hCeq, chainTxs_append, chainTxs_append, chainTxs_singleton,
        List.append_assoc]
    have hw0 := hwfC
    rw [hCtx] at hw0
    obtain ⟨hwQ, hwRest⟩ := (StepsWf_append _ _ _).mp hw0
    rw [List.nil_append] at hwRest
    obtain ⟨hwD, -⟩ := (StepsWf_append _ _ _).mp hwRest
    have hpQ : PriorWf (chainTxs (P ++ S')) := by
      have := PriorWf.of_steps PriorWf.nil hwQ
      rwa [List.nil_append] at this
    have hsubQ : ∀ t ∈ chainTxs (P ++ S'), t ∈ allTxs := fun t ht =>
      hsubC t (by rw [hCtx]; exact List.mem_append.mpr (Or.inl ht))
    have hsubD : ∀ t ∈ blockTxs d, t ∈ allTxs := fun t ht =>
      hsubC t
        (by rw [hCtx]
            exact List.mem_append.mpr (Or.inr (List.mem_append.mpr (Or.inl ht))))
    have hdQ : d.hash ∉ (P ++ S').map Block.hash := by
      have hnd := hbh_nodup
      rw [hCeq, List.map_append, List.map_append] at hnd
      have h1 := (List.nodup_append.mp hnd).1
      have h2 := (List.nodup_append.mp h1).2.2
      intro hmem
      exact h2 hmem (by simp)
    have hvbd : snap.volatile_block d.hash
        = some
          { hash := d.hash, number := d.number, slot := d.slot
            txs := ghostKept cfg (chainTxs (P ++ S')) (blockTxs d)
            datums := [] } := by
      rw [hvb_snap d.hash, hCeq,
        canonVB_append cfg ((P ++ S') ++ [d]) [] E d.hash, List.nil_append,
        canonVB_append cfg (P ++ S') [] [d] d.hash, List.nil_append,
        canonVB_none_of_not_mem cfg hdQ [], Option.none_or]
      show Option.or
          (if d.hash = d.hash then
            some
              { hash := d.hash, number := d.number, slot := d.slot
                txs := ghostKept cfg (chainTxs (P ++ S')) (blockTxs d)
                datums := [] }
          else canonVB cfg (chainTxs (P ++ S') ++ blockTxs d) [] d.hash) _ = _
      rw [if_pos rfl, Option.or_some]
    have hslot : Db.roll_backward_slot [UtxoIndexer.asIndexer idB cfg] snap st
        (d.slot, d.hash)
        = ((ghostKept cfg (chainTxs (P ++ S')) (blockTxs d)).reverse.foldlM
            (fun (st : DbState UtxoState) th =>
              match snap.volatile_tx th with
              | none => Except.error "tx not found while rolling back, the db could be corrupt"
              | some tx => do
                let ind ← Db.foldDeleteTx [UtxoIndexer.asIndexer idB cfg]
                  st.volatile_tx st.indexer tx
                Except.ok { st with indexer := ind })
            st
          >>= fun st1 =>
            Except.ok
              { st1 with
                slots := slotsDelete st1.slots d.slot
                volatile_block := tdel st1.volatile_block d.hash }) := by
      show (match snap.volatile_block d.hash with
        | none => Except.error "block not found while rolling back, the db could be corrupt or rolled back further than max_rollback_blocks"
        | some vb => do
          let st ← vb.txs.reverse.foldlM
            (fun (st : DbState UtxoState) th =>
              match snap.volatile_tx th with
              | none => Except.error "tx not found while rolling back, the db could be corrupt"
              | some tx => do
                let ind ← Db.foldDeleteTx [UtxoIndexer.asIndexer idB cfg]
                  st.volatile_tx st.indexer tx
                Except.ok { st with indexer := ind })
            st
          let st ← vb.datums.reverse.foldlM
            (fun (st : DbState UtxoState) dh => do
              let ind ← Db.foldDeleteDatum [UtxoIndexer.asIndexer idB cfg]
                st.volatile_tx st.indexer dh
              Except.ok { st with indexer := ind })
            st
          Except.ok
            { st with
              slots := slotsDelete st.slots d.slot
              volatile_block := tdel st.volatile_block d.hash }) = _
      rw [hvbd]
      rfl
    rw [List.map_append, List.reverse_append, List.map_singleton,
      List.reverse_singleton, List.singleton_append, List.foldlM_cons,
      hslot] at hrun
    cases hfold : (ghostKept cfg (chainTxs (P ++ S')) (blockTxs d)).reverse.foldlM
        (fun (st : DbState UtxoState) th =>
          match snap.volatile_tx th with
          | none => Except.error "tx not found while rolling back, the db could be corrupt"
          | some tx => do
            let ind ← Db.foldDeleteTx [UtxoIndexer.asIndexer idB cfg]
              st.volatile_tx st.indexer tx
            Except.ok { st with indexer := ind })
        st with
    | error e0 =>
      rw [hfold] at hrun
      exact Except.noConfusion hrun
    | ok st1 =>
      rw [hfold] at hrun
      have hutQ : ∀ q, st.indexer.utxos q
          = specUtxos cfg (chainTxs (P ++ S') ++ blockTxs d) q := by
        intro q
        rw [hut q, hQd, chainTxs_append, chainTxs_singleton]
      obtain ⟨e1, e2, e3, e4, e5⟩ := undo_txs idB cfg allTxs snap hinj hvt_truth
        (blockTxs d) (chainTxs (P ++ S')) hwD hpQ hsubQ hsubD st st1 hvt hutQ hfold
      have hrun2 : ((S'.map (fun b => (b.slot, b.hash))).reverse).foldlM
          (Db.roll_backward_slot [UtxoIndexer.asIndexer idB cfg] snap)
          { st1 with
            slots := slotsDelete st1.slots d.slot
            volatile_block := tdel st1.volatile_block d.hash }
          = Except.ok st' := hrun
      have hpairQd : List.Pairwise (fun b b' : Block => b.slot < b'.slot)
          ((P ++ S') ++ [d]) := by
        refine List.Pairwise.sublist ?_ hpair
        rw [hCeq]
        exact List.sublist_append_left _ _
      have hslot_lt : ∀ b' ∈ P ++ S', b'.slot < d.slot := by
        have := (List.pairwise_append.mp hpairQd).2.2
        intro b' hb'
        exact this b' hb' d (List.mem_singleton.mpr rfl)
      have hslots1 : ({ st1 with
            slots := slotsDelete st1.slots d.slot
            volatile_block := tdel st1.volatile_block d.hash } :
          DbState UtxoState).slots = slotsOfChain (P ++ S') := by
        show slotsDelete st1.slots d.slot = _
        rw [e2, heq, hQd, slotsOfChain_append]
        refine slotsDelete_fresh d.hash ?_
        intro e he
        rw [slotsOfChain, List.mem_reverse] at he
        obtain ⟨b', hb', rfl⟩ := List.mem_map.mp he
        exact Nat.ne_of_lt (hslot_lt b' hb')
      have hvb1 : ∀ h, ({ st1 with
            slots := slotsDelete st1.slots d.slot
            volatile_block := tdel st1.volatile_block d.hash } :
          DbState UtxoState).volatile_block h = canonVB cfg [] (P ++ S') h := by
        intro h
        show tdel st1.volatile_block d.hash h = _
        rw [tdel]
        by_cases hh : h = d.hash
        · rw [if_pos hh, hh, canonVB_none_of_not_mem cfg hdQ []]
        · rw [if_neg hh, e3]
          have := hvb h
          rw [hQd] at this
          rw [this, canonVB_append cfg (P ++ S') [] [d] h, List.nil_append]
          show Option.or _ (if h = d.hash then _ else canonVB cfg _ [] h) = _
          rw [if_neg hh]
          exact option_or_none _
      have hCE' : C = P ++ S' ++ ([d] ++ E) := by
        rw [hCeq]
        simp [List.append_assoc]
      obtain ⟨g1, g2, g3, g4, g5⟩ := ih P ([d] ++ E) hCE'
        { st1 with
          slots := slotsDelete st1.slots d.slot
          volatile_block := tdel st1.volatile_block d.hash }
        st' (by show st1.volatile_tx = _; rw [e1, hvt]) hslots1 hvb1
        (by intro q
            show st1.indexer.utxos q = _
            exact e5 q) hrun2
      refine ⟨?_, ?_, g3, g4, g5⟩
      · exact g1.trans e1
      · exact g2.trans e4

theorem clear_single (idB : Bytes) (cfg : UtxoConfig) (st : DbState UtxoState) :
    Db.clear [UtxoIndexer.asIndexer idB cfg] st
      = Except.ok
        { slots := [], volatile_tx := tempty, volatile_block := tempty
          indexer_ids := [], indexer := UtxoIndexer.empty } := rfl

/-- The empty database driven by the single `UtxoIndexer` satisfies the
simulation invariant for the empty chain. -/
theorem utxoInv_empty (idB : Bytes) (cfg : UtxoConfig) (allTxs : List Tx) :
    UtxoInv idB cfg allTxs []
      { slots := [], volatile_tx := tempty, volatile_block := tempty
        indexer_ids := [], indexer := UtxoIndexer.empty } := by
  refine ⟨rfl, List.chain'_nil, trivial, PriorWf.nil, ?_, List.nodup_nil, ?_, ?_, ?_,
    Or.inl rfl⟩
  · intro t ht
    cases ht
  · intro h
    rfl
  · intro h t hvt
    exact Option.noConfusion hvt
  · intro q
    have hns : ¬ spentByChain (chainTxs []) q := by
      rintro ⟨t, ht, -⟩
      rw [show chainTxs [] = ([] : List Tx) from rfl] at ht
      cases ht
    rw [specUtxos, if_neg hns]
    rfl

/-- Backward preservation: rolling back to a point with the single
`UtxoIndexer` preserves the simulation invariant for the truncated
chain. -/
theorem roll_backward_inv (idB : Bytes) (cfg : UtxoConfig) (allTxs : List Tx)
    (C : List Block) (st st' : DbState UtxoState) (p : Point)
    (hinv : UtxoInv idB cfg allTxs C st) (hinj : HashInj allTxs)
    (hrun : Db.roll_backward [UtxoIndexer.asIndexer idB cfg] st p = Except.ok st') :
    UtxoInv idB cfg allTxs (applyOpChain C (Op.backward p)) st' := by
  cases p with
  | origin =>
    have hrun' : Db.clear [UtxoIndexer.asIndexer idB cfg] st = Except.ok st' := hrun
    rw [clear_single] at hrun'
    cases hrun'
    exact utxoInv_empty idB cfg allTxs
  | specific s bh =>
    have hpairC : List.Pairwise (fun b b' : Block => b.slot < b'.slot) C :=
      (@List.chain'_iff_pairwise Block (fun b b' => b.slot < b'.slot)
        ⟨fun a b c hab hbc => Nat.lt_trans hab hbc⟩ C).mp hinv.slots_mono
    have hsplit : C = C.filter (fun b => b.slot ≤ s)
        ++ C.filter (fun b => s + 1 ≤ b.slot) := chain_split_filter s hpairC
    have hrun' : (do
        let st1 ← Db.assert_indexer_ids st
          (List.map (fun i => i.id) [UtxoIndexer.asIndexer idB cfg])
        (st1.slots.filter (fun e => s + 1 ≤ e.1)).foldlM
          (Db.roll_backward_slot [UtxoIndexer.asIndexer idB cfg] st1) st1)
        = Except.ok st' := hrun
    rw [show (List.map (fun i => i.id) [UtxoIndexer.asIndexer idB cfg]) = [idB]
        from rfl,
      assert_ids_single idB hinv.ids_ok] at hrun'
    have hrun2 : (({ st with indexer_ids := [idB] } :
          DbState UtxoState).slots.filter (fun e => s + 1 ≤ e.1)).foldlM
        (Db.roll_backward_slot [UtxoIndexer.asIndexer idB cfg]
          { st with indexer_ids := [idB] })
        { st with indexer_ids := [idB] } = Except.ok st' := hrun'
    have hentries : (({ st with indexer_ids := [idB] } :
          DbState UtxoState).slots.filter (fun e => s + 1 ≤ e.1))
        = ((C.filter (fun b => s + 1 ≤ b.slot)).map
            (fun b => (b.slot, b.hash))).reverse := by
      show (st.slots.filter (fun e => s + 1 ≤ e.1)) = _
      rw [hinv.slots_eq, slotsOfChain, List.filter_reverse, List.filter_map]
      rfl
    rw [hentries] at hrun2
    obtain ⟨g1, g2, g3, g4, g5⟩ := undo_blocks idB cfg allTxs
      { st with indexer_ids := [idB] } C hinj
      (fun h t hvt => hinv.vt_truth h t hvt)
      (fun h => hinv.vb_eq h)
      hinv.wf hinv.sub hinv.bhashes_nodup hpairC
      (C.filter (fun b => s + 1 ≤ b.slot))
      (C.filter (fun b => b.slot ≤ s)) [] (by rw [List.append_nil, ← hsplit])
      { st with indexer_ids := [idB] } st' rfl
      (by show st.slots = _; rw [hinv.slots_eq, ← hsplit])
      (by intro h
          show st.volatile_block h = _
          rw [hinv.vb_eq h, ← hsplit])
      (by intro q
          show st.indexer.utxos q = _
          rw [hinv.utxos_eq q, ← hsplit])
      hrun2
    have hKsub : List.Sublist (C.filter (fun b => b.slot ≤ s)) C :=
      List.filter_sublist C
    have hKpair : List.Pairwise (fun b b' : Block => b.slot < b'.slot)
        (C.filter (fun b => b.slot ≤ s)) := List.Pairwise.sublist hKsub hpairC
    have hCtxK : chainTxs C = chainTxs (C.filter (fun b => b.slot ≤ s))
        ++ chainTxs (C.filter (fun b => s + 1 ≤ b.slot)) := by
      conv_lhs => rw [hsplit]
      rw [chainTxs_append]
    show UtxoInv idB cfg allTxs (C.filter (fun b => b.slot ≤ s)) st'
    have hwfK : StepsWf [] (chainTxs (C.filter (fun b => b.slot ≤ s))) := by
      have hw0 := hinv.wf
      rw [hCtxK] at hw0
      exact ((StepsWf_append _ _ _).mp hw0).1
    refine ⟨g3, ?_, hwfK, ?_, ?_, ?_, g4, ?_, g5, ?_⟩
    · exact (@List.chain'_iff_pairwise Block (fun b b' => b.slot < b'.slot)
        ⟨fun a b c hab hbc => Nat.lt_trans hab hbc⟩ _).mpr hKpair
    · have := PriorWf.of_steps PriorWf.nil hwfK
      rwa [List.nil_append] at this
    · intro t ht
      refine hinv.sub t ?_
      rw [hCtxK]
      exact List.mem_append.mpr (Or.inl ht)
    · exact List.Nodup.sublist (List.Sublist.map Block.hash hKsub) hinv.bhashes_nodup
    · intro h t hvt
      have hvt' : st.volatile_tx h = some t := by
        have h1 : st'.volatile_tx h = st.volatile_tx h := by
          rw [g1]
        rw [← h1]
        exact hvt
      exact hinv.vt_truth h t hvt'
    · refine Or.inr ?_
      rw [g2]

/-- Preservation along a whole event sequence. -/
theorem runOps_inv (idB : Bytes) (cfg : UtxoConfig) (allTxs : List Tx)
    (hinj : HashInj allTxs) :
    ∀ (ops : List Op) (C : List Block) (st st' : DbState UtxoState),
      OpsWf C ops →
      (∀ t ∈ opsTxs ops, t ∈ allTxs) →
      UtxoInv idB cfg allTxs C st →
      runOps [UtxoIndexer.asIndexer idB cfg] st ops = Except.ok st' →
      UtxoInv idB cfg allTxs (chainAfter C ops) st' := by
  intro ops
  induction ops with
  | nil =>
    intro C st st' _ _ hinv hrun
    have hrun' : Except.ok st = Except.ok st' := hrun
    cases hrun'
    exact hinv
  | cons op rest ih =>
    intro C st st' hwf hsub hinv hrun
    obtain ⟨hop, hrest⟩ := hwf
    cases op with
    | forward b =>
      have hrun' : (Db.roll_forward [UtxoIndexer.asIndexer idB cfg] st b
          >>= fun st1 => runOps [UtxoIndexer.asIndexer idB cfg] st1 rest)
          = Except.ok st' := hrun
      cases hstep : Db.roll_forward [UtxoIndexer.asIndexer idB cfg] st b with
      | error e =>
        rw [hstep] at hrun'
        exact Except.noConfusion hrun'
      | ok st1 =>
        rw [hstep] at hrun'
        have hrun2 : runOps [UtxoIndexer.asIndexer idB cfg] st1 rest
            = Except.ok st' := hrun'
        have hsubb : ∀ t ∈ blockTxs b, t ∈ allTxs := fun t ht =>
          hsub t (List.mem_append.mpr (Or.inl ht))
        have hsub' : ∀ t ∈ opsTxs rest, t ∈ allTxs := fun t ht =>
          hsub t (List.mem_append.mpr (Or.inr ht))
        exact ih (C ++ [b]) st1 st' hrest hsub'
          (roll_forward_inv idB cfg allTxs C st st1 b hinv hop hsubb hstep) hrun2
    | backward p =>
      have hrun' : (Db.roll_backward [UtxoIndexer.asIndexer idB cfg] st p
          >>= fun st1 => runOps [UtxoIndexer.asIndexer idB cfg] st1 rest)
          = Except.ok st' := hrun
      cases hstep : Db.roll_backward [UtxoIndexer.asIndexer idB cfg] st p with
      | error e =>
        rw [hstep] at hrun'
        exact Except.noConfusion hrun'
      | ok st1 =>
        rw [hstep] at hrun'
        have hrun2 : runOps [UtxoIndexer.asIndexer idB cfg] st1 rest
            = Except.ok st' := hrun'
        exact ih (applyOpChain C (Op.backward p)) st1 st' hrest hsub
          (roll_backward_inv idB cfg allTxs C st st1 p hinv hinj hstep) hrun2

/-- C2 (amended): §8 "filter soundness", with the address list read as the
exclusion filter the code enforces.  For any run of forward / backward
events that is chain-legal (`OpsWf`), whose transaction hashes are
collision-free (`HashInj`), and that the engine completes without error,
the `UtxoIndexer`'s `utxos` table holds exactly the currently-unspent
outputs of valid transactions of the reflected chain that pass the
configured filter: the output's address does **not** appear in the
configured address list, and, when an asset list is configured, some listed
asset id matches one of its assets (`specUtxos` over `keepOutput`). -/
theorem utxo_filter_soundness (idB : Bytes) (cfg : UtxoConfig) (ops : List Op)
    (st' : DbState UtxoState)
    (hinj : HashInj (opsTxs ops))
    (hwf : OpsWf [] ops)
    (hrun : runOps [UtxoIndexer.asIndexer idB cfg]
      (emptyDb UtxoState UtxoIndexer.empty) ops = Except.ok st') :
    ∀ q, st'.indexer.utxos q
      = specUtxos cfg (chainTxs (chainAfter [] ops)) q :=
  (runOps_inv idB cfg (opsTxs ops) hinj ops [] _ st' hwf (fun _ ht => ht)
    (utxoInv_empty idB cfg (opsTxs ops)) hrun).utxos_eq

/-- C2 (witness): the amended soundness theorem applied to the concrete
one-block run of `blockA` through a `UtxoIndexer` whose address list is
`[[10]]`. -/
theorem utxo_filter_soundness_witness :
    HashInj (opsTxs [Op.forward blockA]) ∧
    OpsWf [] [Op.forward blockA] ∧
    ∀ q, dbAfterA.indexer.utxos q
      = specUtxos cfgAddrA (chainTxs (chainAfter [] [Op.forward blockA])) q := by
  have hinj : HashInj (opsTxs [Op.forward blockA]) := by
    intro t1 h1 t2 h2 _
    rw [show opsTxs [Op.forward blockA] = [txA] from rfl,
      List.mem_singleton] at h1 h2
    rw [h1, h2]
  have hwf : OpsWf [] [Op.forward blockA] := by
    refine ⟨⟨?_, ?_, ?_, trivial⟩, trivial⟩
    · intro b' hb'
      exact absurd hb' (List.not_mem_nil b')
    · simp
    · refine ⟨?_, ?_, ?_⟩
      · decide
      · intro t' ht'
        exact absurd ht' (List.not_mem_nil t')
      · intro p hp
        rw [show txA.spent = ([] : List TxOutputPointer) from rfl] at hp
        cases hp
  have hrun : runOps [UtxoIndexer.asIndexer [117] cfgAddrA]
      (emptyDb UtxoState UtxoIndexer.empty) [Op.forward blockA]
      = Except.ok dbAfterA := rfl
  exact ⟨hinj, hwf,
    utxo_filter_soundness [117] cfgAddrA [Op.forward blockA] dbAfterA hinj hwf hrun⟩

end Hydrant
